import Mathlib

/-!
Verification development for the candidate-experience extraction repository.

Texts are modelled as `List Char` (one entry per Python character).  Python
string slicing `s[a:b]` with non-negative clamped bounds is `(s.take b).drop a`.
Character predicates (`isdigit`, `isalnum`, whitespace) are modelled by their
ASCII behaviour, which agrees with Python on every input considered here.
-/

/-- Characters Python treats as whitespace in `str.strip` / `str.split`
(ASCII fragment: space, tab, newline, carriage return, vertical tab, form feed). -/
def pyWhite : List Char := [' ', '\t', '\n', '\r', '\x0b', '\x0c']

/-- Decidable whitespace test used throughout. -/
def isPyWhite (c : Char) : Bool := c ∈ pyWhite

/-- Python `str.isdigit` on ASCII input (membership in the ten digit
characters). -/
def pyDigit (c : Char) : Bool := c ∈ "0123456789".data

/-- Python `str.isalpha` on ASCII input. -/
def pyAlpha (c : Char) : Bool := ('a' ≤ c ∧ c ≤ 'z') ∨ ('A' ≤ c ∧ c ≤ 'Z')

/-- Python `str.isalnum` on ASCII input. -/
def pyAlnum (c : Char) : Bool := pyAlpha c || pyDigit c

/-- Python slicing `s[a:b]` for `0 ≤ a ≤ b` (both indices clamped to the length). -/
def pySlice (s : List Char) (a b : Nat) : List Char := (s.take b).drop a

/-- Python `str.lower` on ASCII input, applied characterwise. -/
def lowerStr (s : List Char) : List Char := s.map Char.toLower

/-- Python `str.strip()`: drop leading and trailing whitespace. -/
def pyStrip (s : List Char) : List Char :=
  ((s.dropWhile isPyWhite).reverse.dropWhile isPyWhite).reverse

/-- Python `str.split()`: split on whitespace runs, dropping empty pieces
(structural right-to-left formulation: a non-white character either starts a
new word, when followed by whitespace or the end, or extends the next word). -/
def pyWords : List Char → List (List Char)
  | [] => []
  | c :: rest =>
    let ws := pyWords rest
    if isPyWhite c then ws
    else
      match rest, ws with
      | _, [] => [[c]]
      | [], w :: tl => (c :: w) :: tl
      | d :: _, w :: tl => if isPyWhite d then [c] :: w :: tl else (c :: w) :: tl

/-- Python `" ".join(words)`. -/
def joinSpace : List (List Char) → List Char
  | [] => []
  | [w] => w
  | w :: rest => w ++ ' ' :: joinSpace rest

/-- Does `pat` occur as a contiguous substring of `s`?  (Python `pat in s`.) -/
def containsSub (s pat : List Char) : Bool :=
  match s with
  | [] => decide (pat = [])
  | _ :: rest => decide (s.take pat.length = pat) || containsSub rest pat

/-- Replace every (leftmost, non-overlapping) occurrence of `pat` by `rep`
(Python `str.replace` / `str.format` on a template whose only field is `pat`).
`pat` is assumed non-empty by the caller. -/
def replaceSubF (pat rep : List Char) : Nat → List Char → List Char
  | 0, s => s
  | fuel + 1, s =>
    match s with
    | [] => []
    | c :: rest =>
      if pat ≠ [] ∧ (c :: rest).take pat.length = pat then
        rep ++ replaceSubF pat rep fuel ((c :: rest).drop pat.length)
      else
        c :: replaceSubF pat rep fuel rest

/-- Entry point for `replaceSubF`: every step consumes at least one input
character, so `s.length` steps always complete the scan. -/
def replaceSub (s pat rep : List Char) : List Char :=
  replaceSubF pat rep s.length s

/-! ## Anonymizer (`XLM_RoBerta_entities_extractor.anonymize`, lines 214-298)

An `Entity` is the dataclass from lines 16-22 of
`XLM_RoBerta_entities_extractor.py` (the Python field `end` is spelled
`endPos` because `end` is a Lean keyword). -/

structure Entity where
  type : List Char
  text : List Char
  start : Nat
  endPos : Nat
deriving DecidableEq, Repr

/-- Replacement record appended for each substituted span (lines 276-282). -/
structure Replacement where
  type : List Char
  original : List Char
  replacement : List Char
  start : Nat
  endPos : Nat
deriving DecidableEq, Repr

/-- Result dictionary of `anonymize` (lines 290-294). -/
structure AnonymizeResult where
  original_text : List Char
  anonymized_text : List Char
  replacements : List Replacement
deriving DecidableEq, Repr

/-- Placeholder construction (lines 267-271): if the format string contains
`"{type}"` the entity type is interpolated, else the format is used verbatim. -/
def mkPlaceholder (fmt ty : List Char) : List Char :=
  if containsSub fmt ("{type}".data) then replaceSub fmt ("{type}".data) ty else fmt

/-- One splice step (line 274): `anonymized[:start] + placeholder + anonymized[end:]`. -/
def applyOne (fmt : List Char) (s : List Char) (e : Entity) : List Char :=
  s.take e.start ++ mkPlaceholder fmt e.type ++ s.drop e.endPos

/-- The replacement record built for an entity (lines 276-282). -/
def mkReplacement (fmt : List Char) (e : Entity) : Replacement :=
  ⟨e.type, e.text, mkPlaceholder fmt e.type, e.start, e.endPos⟩

/-- Stable insertion into a descending-by-`start` list: the new element goes in
front of the first strictly smaller start, so elements with equal keys keep
their original relative order (Python `sorted(key=..., reverse=True)` is stable). -/
def insertDesc (e : Entity) : List Entity → List Entity
  | [] => [e]
  | f :: rest => if f.start ≤ e.start then e :: f :: rest else f :: insertDesc e rest

/-- `sorted(entities, key=lambda e: e.start, reverse=True)` (line 260):
stable sort by descending `start`. -/
def sortDescByStart : List Entity → List Entity
  | [] => []
  | e :: rest => insertDesc e (sortDescByStart rest)

/-- `anonymize` (lines 214-298) with the entity list passed explicitly (the
Python method obtains it from `self.extract(text)`); the `entity_types`
filter keeps only listed types when the argument is a non-empty list
(Python truthiness of `if entity_types:`), the early return handles an empty
entity list, spans are applied in descending-start order accumulating one
replacement record each, and the record list is reversed before returning. -/
def anonymize (text : List Char) (entities : List Entity) (fmt : List Char)
    (entityTypes : Option (List (List Char))) : AnonymizeResult :=
  let ents := match entityTypes with
    | some ts => if ts = [] then entities else entities.filter (fun e => e.type ∈ ts)
    | none => entities
  if ents = [] then ⟨text, text, []⟩
  else
    let sorted := sortDescByStart ents
    let anon := sorted.foldl (applyOne fmt) text
    let reps := sorted.map (mkReplacement fmt)
    ⟨text, anon, reps.reverse⟩

/-- Splicing a replacement record's `original` back over its placeholder, at
the record's original-text offset (the spec's reverse transformation: the
placeholder occupies `replacement.length` characters at `start`). -/
def undoOne (s : List Char) (r : Replacement) : List Char :=
  s.take r.start ++ r.original ++ s.drop (r.start + r.replacement.length)

/-- Replaying the whole replacement log (in the order it is returned) over the
anonymized text. -/
def deanonymize (s : List Char) (rs : List Replacement) : List Char :=
  rs.foldl undoOne s

/-- Disjointness of two spans: one ends before the other starts. -/
def SpansDisjoint (a b : Entity) : Prop := a.endPos ≤ b.start ∨ b.endPos ≤ a.start

instance (a b : Entity) : Decidable (SpansDisjoint a b) := by
  unfold SpansDisjoint
  infer_instance

/-! ## Span decoder (`XLM_RoBerta_entities_extractor.extract`, lines 63-168)

The span-assembly loop (lines 101-158) consumes, per token, a predicted label
string and a character-offset pair from the tokenizer's `offset_mapping`
(`zip(predictions, offset_mapping)`), so the decoder is modelled on an
explicit pair of lists.  Tokenization and model inference themselves are the
upstream collaborator and are not modelled. -/

/-- A zipped token: label string together with its `(start, end)` offsets. -/
abbrev Tok := List Char × Nat × Nat

/-- Special (non-text) token test, line 109: offsets exactly `(0, 0)`. -/
def isSpecialTok (t : Tok) : Bool := t.2.1 = 0 ∧ t.2.2 = 0

/-- Python `label.startswith("B-")`. -/
def labStartsB (l : List Char) : Bool := l.take 2 = "B-".data

/-- Python `label.startswith("I-")`. -/
def labStartsI (l : List Char) : Bool := l.take 2 = "I-".data

/-- Closing the open span (lines 115-124 / 135-147 / 149-158): slice the
source text at the recorded offsets, strip whitespace, and emit an entity
only if the stripped text is non-empty; the *stripped* text is stored while
the offsets stay as recorded. -/
def closeSpan (text : List Char) : Option (List Char × Nat × Nat) → List Entity
  | none => []
  | some (ty, cs, ce) =>
    let t := pyStrip (pySlice text cs ce)
    if t = [] then [] else [⟨ty, t, cs, ce⟩]

/-- The token loop of `extract` (lines 107-158): state is the currently open
span `(type, start, end)`, if any. -/
def extractLoop (text : List Char) :
    Option (List Char × Nat × Nat) → List Tok → List Entity
  | cur, [] => closeSpan text cur
  | cur, (lab, s, e) :: toks =>
    if isSpecialTok (lab, s, e) then extractLoop text cur toks
    else if labStartsB lab then
      closeSpan text cur ++ extractLoop text (some (lab.drop 2, s, e)) toks
    else
      match cur with
      | some (ty, cs, ce) =>
        if labStartsI lab ∧ ty = lab.drop 2 then
          extractLoop text (some (ty, cs, e)) toks
        else
          closeSpan text (some (ty, cs, ce)) ++ extractLoop text none toks
      | none => extractLoop text none toks

/-- `extract` (lines 63-168) with the per-token labels and offsets passed
explicitly: the empty/whitespace-only guard of line 75 returns no spans,
otherwise the labels are zipped with the offsets (line 107) and fed through
the span-assembly loop. -/
def extract (text : List Char) (labels : List (List Char))
    (offsets : List (Nat × Nat)) : List Entity :=
  if pyStrip text = [] then []
  else extractLoop text none ((labels.zip offsets).map (fun p => (p.1, p.2.1, p.2.2)))

/-- The zipped token list fed to the loop (line 107). -/
def toksOf (labels : List (List Char)) (offsets : List (Nat × Nat)) : List Tok :=
  (labels.zip offsets).map (fun p => (p.1, p.2.1, p.2.2))

/-- The span invariant of the data model: in-bounds offsets and a stored text
equal to the whitespace-stripped designated substring, non-empty. -/
def WfSpan (text : List Char) (sp : Entity) : Prop :=
  sp.start ≤ sp.endPos ∧ sp.endPos ≤ text.length ∧
  sp.text = pyStrip (pySlice text sp.start sp.endPos) ∧ sp.text ≠ []

instance (text : List Char) (sp : Entity) : Decidable (WfSpan text sp) := by
  unfold WfSpan
  infer_instance

/-- Ordering constraint between two tokens: unless one of them is a special
`(0,0)` token, the left one must end no later than the right one starts
(tokenizer offsets are monotone and non-overlapping). -/
def TokChain (a b : Tok) : Prop :=
  ¬isSpecialTok a = true → ¬isSpecialTok b = true → a.2.2 ≤ b.2.1

instance (a b : Tok) : Decidable (TokChain a b) := by
  unfold TokChain
  infer_instance

/-- Invariant carried by the open-span state: in-bounds, and every upcoming
non-special token starts at or after the open span's current end. -/
def CurInv (text : List Char) (toks : List Tok) :
    Option (List Char × Nat × Nat) → Prop
  | none => True
  | some (_, cs, ce) => cs ≤ ce ∧ ce ≤ text.length ∧
      ∀ t ∈ toks, ¬isSpecialTok t = true → ce ≤ t.2.1

/-! ## A small backtracking regular-expression engine

Python's `re` module, restricted to the constructs used by the patterns of
this repository: character classes, concatenation, alternation with leftmost
preference, greedy `*` / `+` / `?` / `{m,n}` (the bounded forms are desugared
into nested greedy optionals), word boundaries and capturing groups.
`mrun` enumerates the candidate matches of a pattern at a fixed start
position in exactly Python's backtracking preference order, so the head of
the returned list is the match Python commits to.  A fuel argument makes the
recursion structurally terminating; every starred subpattern in this file
consumes at least one character per iteration (enforced by the progress
guard), and each use site passes fuel ample for the whole search. -/

inductive RE where
  | eps : RE
  | cls : List Char → RE
  | seq : RE → RE → RE
  | alt : RE → RE → RE
  | star : RE → RE
  | wb : RE
  | grp : Nat → RE → RE
deriving Repr

/-- Python `\w` on ASCII input: letters, digits and underscore. -/
def isWordChar (c : Char) : Bool := pyAlnum c || c = '_'

/-- Is the character at position `i` (if any) a word character? -/
def wordAt (t : List Char) (i : Nat) : Bool :=
  match t.get? i with
  | some c => isWordChar c
  | none => false

/-- Python `\b`: exactly one of the two neighbouring positions holds a word
character (positions outside the text count as non-word). -/
def atWordBoundary (t : List Char) (i : Nat) : Bool :=
  (if i = 0 then false else wordAt t (i - 1)) != wordAt t i

/-- Captured-group triples `(group index, start, end)`; the most recent
capture of a group is listed first. -/
abbrev Caps := List (Nat × Nat × Nat)

/-- All ways `r` can match a prefix of `t.drop i`, as end positions (with
captures), in Python's backtracking preference order. -/
def mrun : Nat → RE → List Char → Nat → Caps → List (Nat × Caps)
  | 0, _, _, _, _ => []
  | _ + 1, .eps, _, i, cp => [(i, cp)]
  | _ + 1, .cls p, t, i, cp =>
    match t.get? i with
    | some c => if c ∈ p then [(i + 1, cp)] else []
    | none => []
  | fuel + 1, .seq a b, t, i, cp =>
    (mrun fuel a t i cp).flatMap (fun r => mrun fuel b t r.1 r.2)
  | fuel + 1, .alt a b, t, i, cp => mrun fuel a t i cp ++ mrun fuel b t i cp
  | fuel + 1, .star a, t, i, cp =>
    ((mrun fuel a t i cp).flatMap (fun r =>
      if r.1 > i then mrun fuel (.star a) t r.1 r.2 else [])) ++ [(i, cp)]
  | _ + 1, .wb, t, i, cp => if atWordBoundary t i then [(i, cp)] else []
  | fuel + 1, .grp g a, t, i, cp =>
    (mrun fuel a t i cp).map (fun r => (r.1, (g, i, r.1) :: r.2))

/-- Structural size of a pattern, for the fuel bound. -/
def reSize : RE → Nat
  | .eps => 1
  | .cls _ => 1
  | .seq a b => reSize a + reSize b + 1
  | .alt a b => reSize a + reSize b + 1
  | .star a => reSize a + 1
  | .wb => 1
  | .grp _ a => reSize a + 1

/-- Fuel ample for any search of `r` over `t`: along one call path the fuel
drops once per subpattern constructor and once per star unfolding, and every
star unfolding advances the position. -/
def reFuel (r : RE) (t : List Char) : Nat := (reSize r + 1) * (t.length + 2) + 1

/-- A match: start, end, captures. -/
structure MatchRes where
  ms : Nat
  me : Nat
  caps : Caps
deriving Repr, DecidableEq

/-- Fueled scan for the leftmost match at or after position `i` (Python scans
start positions left to right, including the position one past the last
character, and commits to the first position with a match). -/
def firstMatchFromF (r : RE) (t : List Char) : Nat → Nat → Option MatchRes
  | 0, _ => none
  | fuel + 1, i =>
    if i ≤ t.length then
      match (mrun (reFuel r t) r t i []).head? with
      | some rc => some ⟨i, rc.1, rc.2⟩
      | none => firstMatchFromF r t fuel (i + 1)
    else none

/-- Leftmost match at or after position `i`; `t.length + 1 - i` candidate
start positions remain, so that much fuel always completes the scan. -/
def firstMatchFrom (r : RE) (t : List Char) (i : Nat) : Option MatchRes :=
  firstMatchFromF r t (t.length + 1 - i) i

/-- `re.finditer`: non-overlapping matches, scanning left to right; after a
match the scan resumes at its end (or one further, for an empty match —
unreachable for the patterns in this file, which cannot match emptily). -/
def finditerFrom : Nat → RE → List Char → Nat → List MatchRes
  | 0, _, _, _ => []
  | fuel + 1, r, t, i =>
    match firstMatchFrom r t i with
    | none => []
    | some m => m :: finditerFrom fuel r t (if m.ms < m.me then m.me else m.me + 1)

/-- All matches of `r` in `t`, in order. -/
def finditer (r : RE) (t : List Char) : List MatchRes :=
  finditerFrom (t.length + 1) r t 0

/-- `re.sub` with a plain replacement string. -/
def subAllFrom : Nat → RE → List Char → List Char → Nat → List Char
  | 0, _, _, t, i => pySlice t i t.length
  | fuel + 1, r, rep, t, i =>
    match firstMatchFrom r t i with
    | none => pySlice t i t.length
    | some m =>
      pySlice t i m.ms ++ rep ++
        (if m.ms < m.me then subAllFrom fuel r rep t m.me
         else match t.get? m.me with
           | some c => c :: subAllFrom fuel r rep t (m.me + 1)
           | none => [])

/-- `re.sub(pattern, replacement, text)`. -/
def subAll (r : RE) (rep t : List Char) : List Char :=
  subAllFrom (t.length + 1) r rep t 0

/-- `re.sub` with a replacement *function* of the matched substring. -/
def subFnAllFrom : Nat → RE → (List Char → List Char) → List Char → Nat → List Char
  | 0, _, _, t, i => pySlice t i t.length
  | fuel + 1, r, fn, t, i =>
    match firstMatchFrom r t i with
    | none => pySlice t i t.length
    | some m =>
      pySlice t i m.ms ++ fn (pySlice t m.ms m.me) ++
        (if m.ms < m.me then subFnAllFrom fuel r fn t m.me
         else match t.get? m.me with
           | some c => c :: subFnAllFrom fuel r fn t (m.me + 1)
           | none => [])

/-- `re.sub(pattern, fn, text)`. -/
def subFnAll (r : RE) (fn : List Char → List Char) (t : List Char) : List Char :=
  subFnAllFrom (t.length + 1) r fn t 0

/-- Greedy `r+` = `r r*`. -/
def rePlus (r : RE) : RE := .seq r (.star r)

/-- Greedy `r?` — the match is preferred over skipping. -/
def reOpt (r : RE) : RE := .alt r .eps

/-- `r{n}`: exactly `n` copies. -/
def reRepExact : Nat → RE → RE
  | 0, _ => .eps
  | n + 1, r => .seq r (reRepExact n r)

/-- Up to `n` further greedy copies, longest first (nested greedy optionals). -/
def reOptChain : Nat → RE → RE
  | 0, _ => .eps
  | n + 1, r => reOpt (.seq r (reOptChain n r))

/-- Greedy `r{lo,hi}`. -/
def reRepRange (lo hi : Nat) (r : RE) : RE :=
  .seq (reRepExact lo r) (reOptChain (hi - lo) r)

/-- Greedy `r{lo,}`. -/
def reRepAtLeast (lo : Nat) (r : RE) : RE := .seq (reRepExact lo r) (.star r)

/-- Literal string. -/
def reStr (s : List Char) : RE := s.foldr (fun c acc => .seq (.cls [c]) acc) .eps

/-- Alternation over a list, preferring earlier entries. -/
def reChoice : List RE → RE
  | [] => .cls []
  | [a] => a
  | a :: rest => .alt a (reChoice rest)

/-- The digits `\d` (ASCII). -/
def clsDigits : List Char := "0123456789".data

/-! ## Phone number removal (`PhoneNumbersRemover.py`) -/

/-- `UKRAINIAN_OPERATOR_CODES` (lines 6-21), in source order.  (The Python
value is a `set`; its iteration order is irrelevant here because the codes
are pairwise distinct three-character strings, so at any text position at
most one alternative can match.) -/
def ukrainianOperatorCodes : List (List Char) :=
  ["067".data, "068".data, "096".data, "097".data, "098".data,
   "050".data, "066".data, "095".data, "099".data,
   "063".data, "073".data, "093".data,
   "094".data, "092".data, "091".data, "089".data]

/-- The placeholder `f"[{file_name}_PhoneNumber]"` (line 42). -/
def phoneReplacement (file_name : List Char) : List Char :=
  '[' :: file_name ++ "_PhoneNumber]".data

/-- PATTERN 1 (lines 46-48):
`(?:\+?380|0)?[\s\-\(]*(CODE|...)[\s\-\)]*[\d\s\-]{6,8}`. -/
def ukrainianPattern : RE :=
  .seq (reOpt (.alt (.seq (reOpt (.cls ['+'])) (reStr "380".data)) (reStr "0".data)))
    (.seq (.star (.cls (pyWhite ++ ['-', '('])))
      (.seq (.grp 1 (reChoice (ukrainianOperatorCodes.map reStr)))
        (.seq (.star (.cls (pyWhite ++ ['-', ')'])))
          (reRepRange 6 8 (.cls (clsDigits ++ pyWhite ++ ['-']))))))

/-- PATTERN 2 (line 53): `\b\d{10,12}\b`. -/
def digitSequencePattern : RE :=
  .seq .wb (.seq (reRepRange 10 12 (.cls clsDigits)) .wb)

/-- PATTERN 3 (line 60): `(?:\+|\()?[\d\s\-\(\)\.]{9,}`. -/
def phonePattern : RE :=
  .seq (reOpt (.alt (.cls ['+']) (.cls ['('])))
    (reRepAtLeast 9 (.cls (clsDigits ++ pyWhite ++ ['-', '(', ')', '.'])))

/-- `is_valid_phone` (lines 62-66): digit count within `[9,15]` and at least
one separator character present. -/
def is_valid_phone (m : List Char) : Bool :=
  let digits := m.filter pyDigit
  let has_separator := [' ', '-', '(', ')', '.', '+'].any (fun c => c ∈ m)
  9 ≤ digits.length ∧ digits.length ≤ 15 ∧ has_separator

/-- Dropping trailing `'.'` / `'-'` characters (lines 73-74 and 125). -/
def dropTrailingDotDash (l : List Char) : List Char :=
  (l.reverse.dropWhile (fun d => d = '.' ∨ d = '-')).reverse

/-- `replace_phone` (lines 68-78): strip, drop trailing punctuation, validate;
keep the original match when validation fails. -/
def replace_phone (file_name : List Char) (m : List Char) : List Char :=
  let phone := dropTrailingDotDash (pyStrip m)
  if phone ≠ [] ∧ is_valid_phone phone then phoneReplacement file_name else m

/-- `deletePhoneInformation` (lines 24-80): the three substitution passes in
order, the third driven by the `replace_phone` callback. -/
def deletePhoneInformation (text file_name : List Char) : List Char :=
  let t1 := subAll ukrainianPattern (phoneReplacement file_name) text
  let t2 := subAll digitSequencePattern (phoneReplacement file_name) t1
  subFnAll phonePattern (replace_phone file_name) t2

/-- `check_ukrainian_operator` (lines 92-100). -/
def check_ukrainian_operator (digits : List Char) : Bool :=
  let d := if digits.take 3 = "380".data then digits.drop 3 else digits
  if 3 ≤ d.length then d.take 3 ∈ ukrainianOperatorCodes else false

/-- Characters accepted as separators by the manual scanner (line 118). -/
def manualSeps : List Char := [' ', '-', '(', ')', '.', '+']

/-- The scanning loop of `deletePhoneInformationManual` (lines 102-145),
expressed on the remaining suffix of the text: at a digit, `+` or `(`,
greedily consume digits and separators, drop trailing `.`/`-` from the
consumed run, classify it, and either emit the placeholder and resume after
the (trimmed) run, or emit the single character and resume one position on.
Fueled structurally: every iteration consumes at least one character (the
trimmed run keeps its leading start character, which is never `.` or `-`),
so `s.length` iterations always finish. -/
def manualLoopF (file_name : List Char) : Nat → List Char → List Char
  | 0, s => s
  | fuel + 1, s =>
    match s with
    | [] => []
    | c :: rest =>
      if pyDigit c ∨ c = '+' ∨ c = '(' then
        let run := (c :: rest).takeWhile (fun d => pyDigit d || d ∈ manualSeps)
        let digit_count := (run.filter pyDigit).length
        let has_separator := run.any (fun d => d ∈ manualSeps)
        let digits_str := run.filter pyDigit
        let run' := dropTrailingDotDash run
        let is_pure_sequence := 10 ≤ digit_count ∧ digit_count ≤ 12 ∧ ¬has_separator
        let is_formatted_phone := 9 ≤ digit_count ∧ digit_count ≤ 15 ∧ has_separator
        let is_ukrainian := check_ukrainian_operator digits_str
        if is_pure_sequence ∨ is_formatted_phone ∨ is_ukrainian then
          phoneReplacement file_name ++
            manualLoopF file_name fuel ((c :: rest).drop run'.length)
        else
          c :: manualLoopF file_name fuel rest
      else
        c :: manualLoopF file_name fuel rest

/-- `deletePhoneInformationManual` (lines 83-145). -/
def deletePhoneInformationManual (text file_name : List Char) : List Char :=
  manualLoopF file_name text.length text

/-! ## Date-endpoint parsing
(`ExtractDuration.convert_to_datetime`, `DurationExtractor.py` lines 17-50)

`datetime.strptime` restricted to the six format strings of lines 26-33,
modelled after CPython's `_strptime`: `%m` is `(1[0-2]|0[1-9]|[1-9])` with
left-to-right alternative preference, `%Y` is exactly four digits (with
`datetime` rejecting year 0), `%B`/`%b` match the full/abbreviated English
month names case-insensitively (CPython orders the alternation longest
first — recorded below — though no name is a prefix of another, so the order
cannot matter), a literal space in the format matches one or more whitespace
characters, and the whole input string must be consumed.  Since none of the
formats contains a day directive, every parsed date has `day = 1`. -/

structure PDate where
  year : Nat
  month : Nat
  day : Nat
deriving DecidableEq, Repr

/-- Numeric value of a digit character. -/
def digitVal (c : Char) : Nat := c.toNat - '0'.toNat

/-- The `%Y` tail: exactly four digits ending the string, year `0` rejected
(`datetime` raises `ValueError: year 0 is out of range`, caught by the
format loop like any parse failure).  The produced date carries the given
month and the `strptime` default day `1`. -/
def finishYear (m : Nat) (rest : List Char) : Option PDate :=
  match rest with
  | [a, b, c, d] =>
    if pyDigit a ∧ pyDigit b ∧ pyDigit c ∧ pyDigit d then
      if ((digitVal a * 10 + digitVal b) * 10 + digitVal c) * 10 + digitVal d = 0
      then none
      else some ⟨((digitVal a * 10 + digitVal b) * 10 + digitVal c) * 10 + digitVal d,
        m, 1⟩
    else none
  | _ => none

/-- The `%m` alternatives `1[0-2]`, `0[1-9]`, `[1-9]` in preference order,
each paired with the remaining input (full backtracking into the
continuation: the match list is the concatenation of the three alternatives'
match lists). -/
def monthAlts (s : List Char) : List (Nat × List Char) :=
  (match s with
   | c1 :: c2 :: rest =>
     if c1 = '1' ∧ (c2 = '0' ∨ c2 = '1' ∨ c2 = '2') then [(10 + digitVal c2, rest)]
     else []
   | _ => []) ++
  (match s with
   | c1 :: c2 :: rest =>
     if c1 = '0' ∧ (pyDigit c2 ∧ c2 ≠ '0') then [(digitVal c2, rest)] else []
   | _ => []) ++
  (match s with
   | c :: rest => if pyDigit c ∧ c ≠ '0' then [(digitVal c, rest)] else []
   | [] => [])

/-- One of `%m.%Y`, `%m/%Y`, `%m\%Y`, parametrised by the separator. -/
def p_msep (sep : Char) (s : List Char) : Option PDate :=
  (monthAlts s).findSome? (fun mr =>
    match mr.2 with
    | c :: rest => if c = sep then finishYear mr.1 rest else none
    | [] => none)

/-- Case-insensitive literal prefix: on success, the remaining input. -/
def ciStrip? : List Char → List Char → Option (List Char)
  | [], s => some s
  | _ :: _, [] => none
  | p :: ps, c :: cs => if c.toLower = p.toLower then ciStrip? ps cs else none

/-- The format's literal space (one or more whitespace characters) followed
by the `%Y` tail. -/
def finishWsYear (m : Nat) (rest : List Char) : Option PDate :=
  match rest with
  | c :: cs => if isPyWhite c then finishYear m (cs.dropWhile isPyWhite) else none
  | [] => none

/-- Full English month names with their numbers, in CPython's alternation
order (sorted by decreasing length, ties in calendar order). -/
def fullMonthNames : List (Nat × List Char) :=
  [(9, "September".data), (2, "February".data), (11, "November".data),
   (12, "December".data), (1, "January".data), (10, "October".data),
   (8, "August".data), (3, "March".data), (4, "April".data),
   (6, "June".data), (7, "July".data), (5, "May".data)]

/-- Abbreviated English month names with their numbers (all of length three,
so CPython's length sort keeps calendar order). -/
def abbrevMonthNames : List (Nat × List Char) :=
  [(1, "Jan".data), (2, "Feb".data), (3, "Mar".data), (4, "Apr".data),
   (5, "May".data), (6, "Jun".data), (7, "Jul".data), (8, "Aug".data),
   (9, "Sep".data), (10, "Oct".data), (11, "Nov".data), (12, "Dec".data)]

/-- `%B %Y` / `%b %Y`, parametrised by the name table. -/
def p_nameY (names : List (Nat × List Char)) (s : List Char) : Option PDate :=
  names.findSome? (fun nm => (ciStrip? nm.2 s).bind (finishWsYear nm.1))

/-- `%m.%Y`. -/
def p_mdot : List Char → Option PDate := p_msep '.'

/-- `%m/%Y`. -/
def p_mslash : List Char → Option PDate := p_msep '/'

/-- `%m\%Y`. -/
def p_mback : List Char → Option PDate := p_msep '\\'

/-- `%B %Y`. -/
def p_BY : List Char → Option PDate := p_nameY fullMonthNames

/-- `%b %Y`. -/
def p_bY : List Char → Option PDate := p_nameY abbrevMonthNames

/-- `%Y` alone: month defaults to `1`. -/
def p_Y (s : List Char) : Option PDate := finishYear 1 s

/-- The `formats` list of lines 26-33, in source order. -/
def dateFormats : List (List Char → Option PDate) :=
  [p_mdot, p_mslash, p_mback, p_BY, p_bY, p_Y]

/-- The `for format in formats` loop of lines 34-38: each successful parse
overwrites `date`, and the loop never breaks, so the *last* successful
format wins. -/
def tryFormats (t : List Char) : Option PDate :=
  dateFormats.foldl (fun acc p => match p t with | some d => some d | none => acc) none

/-- `re.sub(r"\s+", " ", s)` (line 19): each whitespace run becomes one
space (structural right-to-left formulation: only the last whitespace
character of a run emits the space). -/
def collapseWs : List Char → List Char
  | [] => []
  | c :: rest =>
    let r := collapseWs rest
    if isPyWhite c then
      match rest with
      | d :: _ => if isPyWhite d then r else ' ' :: r
      | [] => ' ' :: r
    else c :: r

/-- Lines 18-19: strip, then collapse interior whitespace. -/
def normalizeDateStr (s : List Char) : List Char := collapseWs (pyStrip s)

/-- Lines 44-50, the anchor-date normalization as the code executes it:
`date.replace(day=1)` for day ≤ 14, the December roll-over of line 46, and —
for day > 14 in any other month — line 48, which calls `datetime.replace`
on the *class* instead of the instance and therefore raises a `TypeError`,
modelled as an error.  (For every date the format loop can produce this
branch is unreachable, since no format carries a day directive.) -/
def normalizeAnchor (d : PDate) : Except Unit PDate :=
  if d.day > 14 then
    if d.month = 12 then .ok ⟨d.year + 1, 1, 1⟩
    else .error ()
  else .ok ⟨d.year, d.month, 1⟩

/-- `convert_to_datetime` (lines 17-50) with `datetime.now()` passed
explicitly as `now`.  Lines 21-22 assign `date = datetime.now()` for
`"present"`, but line 24 unconditionally overwrites `date` with `None`
before the format loop, so that branch has no observable effect (the
`"present"` string then fails every format and takes the line 40-42
fallback, which returns `datetime.now()` as well, after printing a
warning). -/
def convert_to_datetime (now : PDate) (s : List Char) : Except Unit PDate :=
  match tryFormats (normalizeDateStr s) with
  | none => .ok now
  | some d => normalizeAnchor d

/-- The spec's description of the anchor normalization: day after the 14th
rolls to the 1st of the following month (December to January of the next
year), otherwise the 1st of the parsed month. -/
def anchorSpec (d : PDate) : PDate :=
  if d.day > 14 then
    if d.month = 12 then ⟨d.year + 1, 1, 1⟩ else ⟨d.year, d.month + 1, 1⟩
  else ⟨d.year, d.month, 1⟩

/-- Modelled from the spec (for comparison with the code): `"present"` in any
casing maps to the reference date; otherwise the formats MM.YYYY, MM/YYYY,
full month + YYYY, abbreviated month + YYYY, YYYY — the claim's list, which
*omits* `%m\%Y` — are attempted in that order with the first success
winning; unparseable endpoints fall back to the reference date. -/
def convertSpecFive (now : PDate) (s : List Char) : PDate :=
  if lowerStr (normalizeDateStr s) = "present".data then now
  else
    match ([p_mdot, p_mslash, p_BY, p_bY, p_Y] :
        List (List Char → Option PDate)).findSome?
          (fun p => p (normalizeDateStr s)) with
    | some d => anchorSpec d
    | none => now

/-- Modelled from the spec, amended with the sixth format `%m\%Y` that the
code also attempts: first successful parse wins. -/
def convertSpec (now : PDate) (s : List Char) : PDate :=
  if lowerStr (normalizeDateStr s) = "present".data then now
  else
    match dateFormats.findSome? (fun p => p (normalizeDateStr s)) with
    | some d => anchorSpec d
    | none => now

instance instDecEqExceptPDate {α β : Type} [DecidableEq α] [DecidableEq β] :
    DecidableEq (Except α β) := fun a b =>
  match a, b with
  | .ok x, .ok y =>
    if h : x = y then isTrue (by rw [h]) else isFalse (fun hh => h (Except.ok.inj hh))
  | .error x, .error y =>
    if h : x = y then isTrue (by rw [h])
    else isFalse (fun hh => h (Except.error.inj hh))
  | .ok _, .error _ => isFalse (fun hh => Except.noConfusion hh)
  | .error _, .ok _ => isFalse (fun hh => Except.noConfusion hh)

/-! ## Skills extractor (`SkillsExtractor.py`)

The Python trie is a nested `dict` mapping a lowercased character to a child
dict, with the `'$'` key holding the original-cased skill that ends there
(`_create_search_dict`, lines 43-75).  It is modelled as a tree with an
optional terminal payload and an association list of children (lookup is by
key, as for a `dict`; new children are appended, matching insertion order). -/

inductive Trie where
  | node (stop : Option (List Char)) (children : List (Char × Trie))

/-- The `'$'` payload of a node. -/
def Trie.stop : Trie → Option (List Char)
  | .node s _ => s

/-- The children of a node. -/
def Trie.children : Trie → List (Char × Trie)
  | .node _ c => c

/-- Dict lookup among the children (`char in current` / `current[char]`). -/
def childFind (cs : List (Char × Trie)) (c : Char) : Option Trie :=
  match cs with
  | [] => none
  | (d, t) :: rest => if d = c then some t else childFind rest c

/-- Dict overwrite of an existing key. -/
def updateChild (cs : List (Char × Trie)) (c : Char) (t : Trie) :
    List (Char × Trie) :=
  match cs with
  | [] => []
  | (d, u) :: rest =>
    if d = c then (d, t) :: rest else (d, u) :: updateChild rest c t

/-- Inserting one skill: walk/build the path of `key` (the lowercased skill)
and store the original-cased skill at its end (lines 62-73; the `'$'` write
of line 73 overwrites any previous skill with the same lowercased form). -/
def trieInsert : Trie → List Char → List Char → Trie
  | .node _ ch, [], sk => .node (some sk) ch
  | .node stop ch, c :: w, sk =>
    match childFind ch c with
    | some t => .node stop (updateChild ch c (trieInsert t w sk))
    | none => .node stop (ch ++ [(c, trieInsert (.node none []) w sk)])

/-- `_create_search_dict` (lines 43-75) with the skill list passed explicitly
(the Python method reads it from the CSV file, which is the collaborator's
input). -/
def create_search_dict (skills : List (List Char)) : Trie :=
  skills.foldl (fun tree sk => trieInsert tree (lowerStr sk) sk) (.node none [])

/-- `_check_word_ended` (lines 95-122): the match `text[start..end]`
(inclusive `end`) must not have an alphanumeric character immediately before
`start`, nor one at `end + 1` when `end < len(text) - 1`. -/
def check_word_ended (text : List Char) (start endPos : Nat) : Bool :=
  if start > 0 && ((text.get? (start - 1)).map pyAlnum).getD false then false
  else if decide (endPos < text.length - 1)
      && ((text.get? (endPos + 1)).map pyAlnum).getD false then false
  else true

/-- The inner `while` loop of `extract_skills` (lines 150-162), on the suffix
of the normalized text beginning at `pos`: descend the trie while characters
match, recording each `'$'` payload that passes the word-boundary check. -/
def walkTrie (text : List Char) (start : Nat) :
    Trie → List Char → Nat → List (List Char)
  | _, [], _ => []
  | t, c :: rest, pos =>
    match childFind t.children c with
    | none => []
    | some tc =>
      (match tc.stop with
       | some v => if check_word_ended text start pos then [v] else []
       | none => []) ++ walkTrie text start tc rest (pos + 1)

/-- `set.add` on the discovery-ordered list model of `found_skills`. -/
def foundInsert (l : List (List Char)) (v : List Char) : List (List Char) :=
  if v ∈ l then l else l ++ [v]

/-- Text normalization of line 146: `" ".join(text.split()).lower()`. -/
def normalizeText (t : List Char) : List Char := lowerStr (joinSpace (pyWords t))

/-- `extract_skills` (lines 124-171) with the skill dictionary passed
explicitly; the JSON dump to `output_path` is an I/O side effect with no
bearing on the returned set and is not modelled.  The scan tries a match at
every start position of the normalized text. -/
def extract_skills (skills : List (List Char)) (text : List Char) :
    List (List Char) :=
  (List.range (normalizeText text).length).foldl
    (fun acc start =>
      (walkTrie (normalizeText text) start (create_search_dict skills)
        ((normalizeText text).drop start) start).foldl foundInsert acc) []

/-! ## Lemmas about the skills extractor -/

/-- Descend the trie along a word. -/
def subTrie : Trie → List Char → Option Trie
  | t, [] => some t
  | t, c :: w =>
    match childFind t.children c with
    | some tc => subTrie tc w
    | none => none

/-- The canonical skill stored at the end of a path, if any. -/
def trieFind (t : Trie) (w : List Char) : Option (List Char) :=
  (subTrie t w).bind Trie.stop

/-! ## Duration extraction (`ExtractDuration.get_skills_duration`,
`DurationExtractor.py` lines 52-82) -/

/-- `[A-Za-z]`. -/
def clsAlpha : List Char :=
  "ABCDEFGHIJKLMNOPQRSTUVWXYZabcdefghijklmnopqrstuvwxyz".data

/-- Case-insensitive literal (the whole pattern is compiled with
`re.IGNORECASE`; only the literal `PRESENT` is affected). -/
def reStrCi (s : List Char) : RE :=
  s.foldr (fun c acc => .seq (.cls [c.toUpper, c.toLower]) acc) .eps

/-- `[A-Za-z]+\s+\d{4}`. -/
def reWordYear : RE :=
  .seq (rePlus (.cls clsAlpha))
    (.seq (rePlus (.cls pyWhite)) (reRepExact 4 (.cls clsDigits)))

/-- `\d{2}\.\d{4}`. -/
def reNumYear : RE :=
  .seq (reRepExact 2 (.cls clsDigits))
    (.seq (.cls ['.']) (reRepExact 4 (.cls clsDigits)))

/-- The date-range pattern of line 60:
`([A-Za-z]+\s+\d{4}|\d{2}\.\d{4})\s*[-–—]\s*(PRESENT|[A-Za-z]+\s+\d{4}|\d{2}\.\d{4})`. -/
def dateRangeRE : RE :=
  .seq (.grp 1 (.alt reWordYear reNumYear))
    (.seq (.star (.cls pyWhite))
      (.seq (.cls ['-', '–', '—'])
        (.seq (.star (.cls pyWhite))
          (.grp 2 (reChoice [reStrCi "PRESENT".data, reWordYear, reNumYear])))))

/-- `list(re.finditer(date_pattern, text))` (line 63). -/
def dateMatches (text : List Char) : List MatchRes := finditer dateRangeRE text

/-- `match[g]`: the captured span of group `g` (each group captures exactly
once per match of this pattern). -/
def capLookup (caps : Caps) (g : Nat) : Option (Nat × Nat) :=
  caps.findSome? (fun c => if c.1 = g then some c.2 else none)

/-- The text segment attributed to the `i`-th date-range match
(lines 72-75): from the end of match `i` to the start of match `i+1`, or to
`len(text) - 1` for the last match. -/
def segmentsOf (text : List Char) : List (List Char) :=
  (List.range (dateMatches text).length).map (fun i =>
    match (dateMatches text).get? i, (dateMatches text).get? (i + 1) with
    | some m, some m2 => pySlice text m.me m2.ms
    | some m, none => pySlice text m.me (text.length - 1)
    | none, _ => [])

/-- Gregorian leap year. -/
def isLeap (y : Int) : Bool := y % 4 = 0 ∧ (y % 100 ≠ 0 ∨ y % 400 = 0)

/-- Days in a month. -/
def daysInMonth (y : Int) (m : Nat) : Nat :=
  if m = 2 then (if isLeap y then 29 else 28)
  else if m ∈ [4, 6, 9, 11] then 30 else 31

/-- dateutil month shift with day clamping. -/
def addMonths (d : PDate) (t : Int) : PDate :=
  let idx : Int := (d.year : Int) * 12 + ((d.month : Int) - 1) + t
  let y : Int := idx.ediv 12
  let m : Nat := (idx.emod 12 + 1).toNat
  ⟨y.toNat, m, min d.day (daysInMonth y m)⟩

/-- Lexicographic date comparison. -/
def pdateLt (a b : PDate) : Bool :=
  a.year < b.year ∨ (a.year = b.year ∧
    (a.month < b.month ∨ (a.month = b.month ∧ a.day < b.day)))

/-- dateutil `relativedelta.__init__` month-adjustment loop: shift the raw
month difference until `dt2` moved by it does not overshoot `dt1` (fueled;
at most one step is ever taken for day-clamped dates, and the loop is a
no-op for the day-1 anchor dates this file produces). -/
def rdAdjust (dt1 dt2 : PDate) : Nat → Int → Int
  | 0, t => t
  | fuel + 1, t =>
    if pdateLt dt1 dt2 then
      (if pdateLt (addMonths dt2 t) dt1 then rdAdjust dt1 dt2 fuel (t + 1) else t)
    else
      (if pdateLt dt1 (addMonths dt2 t) then rdAdjust dt1 dt2 fuel (t - 1) else t)

/-- `relativedelta(dt1, dt2)` reduced to the quantity the code consumes:
`difference.years * 12 + difference.months` equals the adjusted total month
difference exactly (the years/months normalization preserves the sum). -/
def relativedeltaTotalMonths (dt1 dt2 : PDate) : Int :=
  rdAdjust dt1 dt2 4
    (12 * ((dt1.year : Int) - dt2.year) + ((dt1.month : Int) - dt2.month))

/-- Dict lookup in the duration accumulator. -/
def dictGet (mp : List (List Char × Int)) (k : List Char) : Option Int :=
  mp.findSome? (fun p => if p.1 = k then some p.2 else none)

/-- In-place `+=` on an existing key. -/
def dictAdd (mp : List (List Char × Int)) (k : List Char) (v : Int) :
    List (List Char × Int) :=
  mp.map (fun p => if p.1 = k then (p.1, p.2 + v) else p)

/-- `skills_duration[skill] += v`: a `KeyError` — modelled as `.error ()` —
when the key is absent (lines 79-80 perform two unguarded `+=` on the same
key, adding `years * 12` then `months`; their net effect is one addition of
the total month difference, with identical success/failure behaviour). -/
def bumpSkill (mp : List (List Char × Int)) (k : List Char) (v : Int) :
    Except Unit (List (List Char × Int)) :=
  if (dictGet mp k).isSome then .ok (dictAdd mp k v) else .error ()

/-- The inner `for skill in segment_skills` loop (lines 78-80). -/
def bumpAll (mp : List (List Char × Int)) (v : Int) :
    List (List Char) → Except Unit (List (List Char × Int))
  | [] => .ok mp
  | k :: rest =>
    match bumpSkill mp k v with
    | .ok mp' => bumpAll mp' v rest
    | .error e => .error e

/-- One iteration of the `for i, match in enumerate(matches)` loop
(lines 64-80): parse both captured endpoints, compute the month difference,
slice the attributed segment, scan it, and accumulate. -/
def durationStep (skills : List (List Char)) (now : PDate) (text : List Char)
    (ms : List MatchRes) (acc : List (List Char × Int)) (i : Nat) :
    Except Unit (List (List Char × Int)) :=
  match ms.get? i with
  | none => .ok acc
  | some m =>
    match capLookup m.caps 1, capLookup m.caps 2 with
    | some g1, some g2 =>
      match convert_to_datetime now (pySlice text g1.1 g1.2),
          convert_to_datetime now (pySlice text g2.1 g2.2) with
      | .ok sd, .ok ed =>
        bumpAll acc (relativedeltaTotalMonths ed sd)
          (extract_skills skills
            (pySlice text m.me
              (match ms.get? (i + 1) with
               | some m2 => m2.ms
               | none => text.length - 1)))
      | _, _ => .error ()
    | _, _ => .error ()

/-- `get_skills_duration` (lines 52-82) with the skill dictionary and the
reference date passed explicitly: seed the accumulator with `0` for every
skill found in the full text (`dict.fromkeys`, line 58), then process each
date-range match in order. -/
def get_skills_duration (skills : List (List Char)) (now : PDate)
    (text : List Char) : Except Unit (List (List Char × Int)) :=
  (List.range (dateMatches text).length).foldlM
    (durationStep skills now text (dateMatches text))
    ((extract_skills skills text).map (fun v => (v, (0 : Int))))

/-! ## Theorems -/

/-! ## Lemmas about the anonymizer -/

theorem insertDesc_perm (e : Entity) (l : List Entity) :
    (insertDesc e l).Perm (e :: l) := by
  induction l with
  | nil => simp [insertDesc]
  | cons f rest ih =>
    simp only [insertDesc]
    split
    · exact List.Perm.refl _
    · exact ((ih.cons f).trans (List.Perm.swap e f rest))

theorem sortDescByStart_perm (l : List Entity) : (sortDescByStart l).Perm l := by
  induction l with
  | nil => simp [sortDescByStart]
  | cons e rest ih =>
    exact (insertDesc_perm e (sortDescByStart rest)).trans (ih.cons e)

theorem insertDesc_pairwise (e : Entity) (l : List Entity)
    (h : l.Pairwise (fun a b => b.start ≤ a.start)) :
    (insertDesc e l).Pairwise (fun a b => b.start ≤ a.start) := by
  induction l with
  | nil => simp [insertDesc]
  | cons f rest ih =>
    simp only [insertDesc]
    rw [List.pairwise_cons] at h
    obtain ⟨hf, hrest⟩ := h
    split
    · rename_i hle
      rw [List.pairwise_cons]
      refine ⟨?_, List.pairwise_cons.mpr ⟨hf, hrest⟩⟩
      intro x hx
      rw [List.mem_cons] at hx
      rcases hx with rfl | hx
      · exact hle
      · exact le_trans (hf x hx) hle
    · rename_i hlt
      rw [List.pairwise_cons]
      refine ⟨?_, ih hrest⟩
      intro x hx
      have hx' := (insertDesc_perm e rest).mem_iff.mp hx
      rw [List.mem_cons] at hx'
      rcases hx' with rfl | hx'
      · omega
      · exact hf x hx'

theorem sortDescByStart_pairwise (l : List Entity) :
    (sortDescByStart l).Pairwise (fun a b => b.start ≤ a.start) := by
  induction l with
  | nil => simp [sortDescByStart]
  | cons e rest ih => exact insertDesc_pairwise e _ ih

theorem applyOne_take (fmt : List Char) (s : List Char) (e : Entity) (m : Nat)
    (h1 : m ≤ e.start) (h2 : m ≤ s.length) :
    (applyOne fmt s e).take m = s.take m := by
  unfold applyOne
  rw [List.append_assoc, List.take_append_of_le_length, List.take_take,
    Nat.min_eq_left h1]
  simp [Nat.le_min]
  omega

theorem foldr_applyOne_take (fmt : List Char) (l : List Entity) (s : List Char) (m : Nat)
    (hl : ∀ f ∈ l, m ≤ f.start) (hs : m ≤ s.length) :
    (l.foldr (fun e t => applyOne fmt t e) s).take m = s.take m := by
  induction l with
  | nil => rfl
  | cons e rest ih =>
    have ih' := ih (fun f hf => hl f (List.mem_cons_of_mem e hf))
    have hlen : m ≤ (rest.foldr (fun e t => applyOne fmt t e) s).length := by
      have := congrArg List.length ih'
      simp [List.length_take] at this
      omega
    simp only [List.foldr_cons]
    rw [applyOne_take fmt _ e m (hl e (List.mem_cons_self e rest)) hlen, ih']

theorem take_slice_drop (s : List Char) (a b : Nat) (h : a ≤ b) :
    s.take a ++ pySlice s a b ++ s.drop b = s := by
  unfold pySlice
  rw [show s.take a = (s.take b).take a by rw [List.take_take, Nat.min_eq_left h]]
  rw [List.take_append_drop, List.take_append_drop]

theorem undo_applyOne (fmt : List Char) (B : List Char) (e : Entity)
    (h1 : e.start ≤ e.endPos) (h2 : e.endPos ≤ B.length)
    (h3 : e.text = pySlice B e.start e.endPos) :
    undoOne (applyOne fmt B e) (mkReplacement fmt e) = B := by
  have hstart : e.start ≤ B.length := le_trans h1 h2
  have hlen1 : (B.take e.start).length = e.start := by
    simp [List.length_take]; omega
  show (applyOne fmt B e).take e.start ++ e.text ++
      (applyOne fmt B e).drop (e.start + (mkPlaceholder fmt e.type).length) = B
  unfold applyOne
  rw [List.take_append_of_le_length (by rw [List.length_append, hlen1]; omega)]
  rw [List.take_append_of_le_length (le_of_eq hlen1.symm)]
  rw [List.take_take, Nat.min_self]
  rw [List.drop_left' (by rw [List.length_append, hlen1])]
  rw [h3]
  exact take_slice_drop B e.start e.endPos h1

theorem undo_foldr (fmt : List Char) (l : List Entity) (t : List Char)
    (hchain : l.Pairwise (fun a b => a.endPos ≤ b.start))
    (hwf : ∀ e ∈ l, e.start ≤ e.endPos ∧ e.endPos ≤ t.length ∧
      e.text = pySlice t e.start e.endPos) :
    deanonymize (l.foldr (fun e s => applyOne fmt s e) t) (l.map (mkReplacement fmt)) = t := by
  induction l with
  | nil => rfl
  | cons e rest ih =>
    rw [List.pairwise_cons] at hchain
    obtain ⟨hle, hchain'⟩ := hchain
    obtain ⟨h1, h2, h3⟩ := hwf e (List.mem_cons_self e rest)
    have hwf' : ∀ f ∈ rest, f.start ≤ f.endPos ∧ f.endPos ≤ t.length ∧
        f.text = pySlice t f.start f.endPos :=
      fun f hf => hwf f (List.mem_cons_of_mem e hf)
    set B := rest.foldr (fun e s => applyOne fmt s e) t with hB
    have hpre : B.take e.endPos = t.take e.endPos :=
      foldr_applyOne_take fmt rest t e.endPos hle h2
    have hBlen : e.endPos ≤ B.length := by
      have := congrArg List.length hpre
      simp [List.length_take] at this
      omega
    have hslice : e.text = pySlice B e.start e.endPos := by
      unfold pySlice
      rw [hpre]
      exact h3
    simp only [List.foldr_cons, List.map_cons]
    show deanonymize (applyOne fmt B e) (mkReplacement fmt e :: rest.map (mkReplacement fmt)) = t
    unfold deanonymize
    rw [List.foldl_cons]
    rw [show List.foldl undoOne (undoOne (applyOne fmt B e) (mkReplacement fmt e))
          (rest.map (mkReplacement fmt))
        = deanonymize (undoOne (applyOne fmt B e) (mkReplacement fmt e))
          (rest.map (mkReplacement fmt)) from rfl]
    rw [undo_applyOne fmt B e h1 hBlen hslice]
    exact ih hchain' hwf'

theorem spansDisjoint_symm {a b : Entity} (h : SpansDisjoint a b) : SpansDisjoint b a :=
  h.symm

/-- C1 (amended): for every text `t` and every list of pairwise
non-overlapping, in-bounds, *non-empty* spans over `t` (each span's `text`
being the designated substring `t[start:end]`), running `anonymize` and then
splicing each replacement record's `original` back into `anonymized_text` in
place of its placeholder, in the log's order and at the log's offsets,
reconstructs `t` exactly; moreover the log carries back exactly the original
spans' `(start, end, text)` triples (as a permutation).  The claim as stated
— without the non-emptiness requirement — is refuted by
`anonymize_not_reversible_on_empty_span`. -/
theorem anonymize_reversible (t : List Char) (es : List Entity) (fmt : List Char)
    (hdisj : es.Pairwise SpansDisjoint)
    (hwf : ∀ e ∈ es, e.start < e.endPos ∧ e.endPos ≤ t.length ∧
      e.text = pySlice t e.start e.endPos) :
    deanonymize (anonymize t es fmt none).anonymized_text
      (anonymize t es fmt none).replacements = t
    ∧ ((anonymize t es fmt none).replacements.map
        (fun r => (r.start, r.endPos, r.original))).Perm
      (es.map (fun e => (e.start, e.endPos, e.text))) := by
  by_cases hes : es = []
  · subst hes
    constructor
    · rfl
    · simp [anonymize, deanonymize]
  · have hanon : anonymize t es fmt none =
        ⟨t, (sortDescByStart es).foldl (applyOne fmt) t,
          ((sortDescByStart es).map (mkReplacement fmt)).reverse⟩ := by
      simp only [anonymize]
      rw [if_neg hes]
    rw [hanon]
    simp only
    have hperm : (sortDescByStart es).Perm es := sortDescByStart_perm es
    have hdesc := sortDescByStart_pairwise es
    -- the ascending view of the sorted list
    set asc := (sortDescByStart es).reverse with hasc
    have hsortedasc : List.Pairwise (fun a b : Entity => a.start ≤ b.start) asc := by
      rw [hasc, List.pairwise_reverse]
      exact hdesc
    have hpermasc : asc.Perm es := (List.reverse_perm _).trans hperm
    have hdisjasc : asc.Pairwise SpansDisjoint :=
      ((hpermasc).pairwise_iff (fun h => spansDisjoint_symm h)).mpr hdisj
    have hwfasc : ∀ e ∈ asc, e.start < e.endPos ∧ e.endPos ≤ t.length ∧
        e.text = pySlice t e.start e.endPos :=
      fun e he => hwf e (hpermasc.mem_iff.mp he)
    have hchain : asc.Pairwise (fun a b => a.endPos ≤ b.start) := by
      have hboth := hsortedasc.and hdisjasc
      refine hboth.imp_of_mem ?_
      intro a b ha hb hab
      rcases hab.2 with h | h
      · exact h
      · -- b would end before a starts while also starting no earlier: b empty,
        -- contradicting non-emptiness
        have hbwf := (hwfasc b hb).1
        omega
    have hfold : (sortDescByStart es).foldl (applyOne fmt) t
        = asc.foldr (fun e s => applyOne fmt s e) t := by
      have h := List.foldl_reverse asc (applyOne fmt) t
      rw [hasc, List.reverse_reverse] at h
      exact h
    have hreps : ((sortDescByStart es).map (mkReplacement fmt)).reverse
        = asc.map (mkReplacement fmt) := by
      rw [hasc, List.map_reverse]
    rw [hfold, hreps]
    constructor
    · exact undo_foldr fmt asc t hchain
        (fun e he => ⟨le_of_lt (hwfasc e he).1, (hwfasc e he).2.1, (hwfasc e he).2.2⟩)
    · have : (asc.map (mkReplacement fmt)).map (fun r => (r.start, r.endPos, r.original))
          = asc.map (fun e => (e.start, e.endPos, e.text)) := by
        rw [List.map_map]
        rfl
      rw [this]
      exact hpermasc.map _

/-- C1 counterexample: with an *empty* span `[3,3)` listed before the span
`[3,5)` at the same start — a pair that is non-overlapping (`3 ≤ 3`) and
in-bounds, with both `text` fields matching their substrings — splicing the
log back does not restore the original text, so the claim without a
non-emptiness restriction is false. -/
theorem anonymize_not_reversible_on_empty_span :
    deanonymize
      (anonymize "01234".data
        [⟨"A".data, "".data, 3, 3⟩, ⟨"B".data, "34".data, 3, 5⟩] "*".data none).anonymized_text
      (anonymize "01234".data
        [⟨"A".data, "".data, 3, 3⟩, ⟨"B".data, "34".data, 3, 5⟩] "*".data none).replacements
    ≠ "01234".data := by
  decide

/-- Witness for `anonymize_reversible` at a concrete input. -/
theorem anonymize_reversible_witness :
    deanonymize
      (anonymize "hello world".data
        [⟨"PER".data, "hello".data, 0, 5⟩, ⟨"LOC".data, "world".data, 6, 11⟩]
        "[{type}]".data none).anonymized_text
      (anonymize "hello world".data
        [⟨"PER".data, "hello".data, 0, 5⟩, ⟨"LOC".data, "world".data, 6, 11⟩]
        "[{type}]".data none).replacements = "hello world".data
    ∧ ((anonymize "hello world".data
        [⟨"PER".data, "hello".data, 0, 5⟩, ⟨"LOC".data, "world".data, 6, 11⟩]
        "[{type}]".data none).replacements.map
          (fun r => (r.start, r.endPos, r.original))).Perm
      ([⟨"PER".data, "hello".data, 0, 5⟩,
        (⟨"LOC".data, "world".data, 6, 11⟩ : Entity)].map
          (fun e => (e.start, e.endPos, e.text))) :=
  anonymize_reversible "hello world".data
    [⟨"PER".data, "hello".data, 0, 5⟩, ⟨"LOC".data, "world".data, 6, 11⟩]
    "[{type}]".data
    (by decide)
    (by decide)

/-- C2: `anonymize` returns its `replacements` list sorted by ascending
`start` (chronological order), and that list is — up to the permutation
induced by sorting — exactly one record per input span, each record carrying
the span's type, its text as `original`, the placeholder built from the
format, and the span's `start`/`end` offsets into the original text.  This
holds for every entity list, with no disjointness hypotheses. -/
theorem anonymize_replacements_chronological (t : List Char) (es : List Entity)
    (fmt : List Char) :
    ((anonymize t es fmt none).replacements).Pairwise (fun a b => a.start ≤ b.start)
    ∧ ((anonymize t es fmt none).replacements).Perm (es.map (mkReplacement fmt)) := by
  by_cases hes : es = []
  · subst hes
    constructor
    · simp [anonymize]
    · simp [anonymize]
  · have hanon : anonymize t es fmt none =
        ⟨t, (sortDescByStart es).foldl (applyOne fmt) t,
          ((sortDescByStart es).map (mkReplacement fmt)).reverse⟩ := by
      simp only [anonymize]
      rw [if_neg hes]
    rw [hanon]
    simp only
    constructor
    · rw [List.pairwise_reverse, List.pairwise_map]
      refine (sortDescByStart_pairwise es).imp ?_
      intro a b hab
      simpa [mkReplacement] using hab
    · exact (List.reverse_perm _).trans ((sortDescByStart_perm es).map _)

theorem extract_eq_loop (text : List Char) (labels : List (List Char))
    (offsets : List (Nat × Nat)) :
    extract text labels offsets =
      if pyStrip text = [] then [] else extractLoop text none (toksOf labels offsets) := rfl

/-! ## Lemmas about the span decoder -/

theorem zip_truncates {α β : Type} (l₁ : List α) (l₂ : List β) :
    l₁.zip l₂ = (l₁.take (min l₁.length l₂.length)).zip
      (l₂.take (min l₁.length l₂.length)) := by
  induction l₁ generalizing l₂ with
  | nil => simp
  | cons a l₁ ih =>
    cases l₂ with
    | nil => simp
    | cons b l₂ =>
      simp only [List.length_cons, Nat.succ_min_succ, List.take_succ_cons,
        List.zip_cons_cons]
      rw [← ih]

/-- C4 (amended): on mismatched label/offset sequence lengths the decoder does
not raise anything — there is no `InvalidInputError` anywhere in the code —
but silently processes exactly the common prefix: its output always equals
the output on both inputs truncated to the shorter length (`zip` semantics). -/
theorem extract_truncates_to_common_length (text : List Char)
    (labels : List (List Char)) (offsets : List (Nat × Nat)) :
    extract text labels offsets
      = extract text (labels.take (min labels.length offsets.length))
          (offsets.take (min labels.length offsets.length)) := by
  unfold extract
  rw [← zip_truncates]

/-- C4 counterexample: with two labels but a single offset pair the decoder
returns a normal span list — the one obtained from the truncated prefix —
rather than failing: the claimed `InvalidInputError` does not exist. -/
theorem extract_mismatched_lengths_returns_normally :
    extract "ab".data ["B-PER".data, "I-PER".data] [(0, 1)]
        = extract "ab".data ["B-PER".data] [(0, 1)]
    ∧ extract "ab".data ["B-PER".data, "I-PER".data] [(0, 1)]
        = [⟨"PER".data, "a".data, 0, 1⟩] := by
  constructor
  · decide
  · decide

theorem closeSpan_wf (text : List Char) (ty : List Char) (cs ce : Nat)
    (h1 : cs ≤ ce) (h2 : ce ≤ text.length) :
    ∀ sp ∈ closeSpan text (some (ty, cs, ce)), WfSpan text sp := by
  intro sp hsp
  unfold closeSpan at hsp
  simp only at hsp
  split at hsp
  · simp at hsp
  · rename_i hne
    rw [List.mem_singleton] at hsp
    subst hsp
    exact ⟨h1, h2, rfl, hne⟩

theorem extractLoop_wf (text : List Char) :
    ∀ (toks : List Tok) (cur : Option (List Char × Nat × Nat)),
    (∀ t ∈ toks, ¬isSpecialTok t = true → t.2.1 ≤ t.2.2 ∧ t.2.2 ≤ text.length) →
    toks.Pairwise TokChain →
    CurInv text toks cur →
    ∀ sp ∈ extractLoop text cur toks, WfSpan text sp := by
  intro toks
  induction toks with
  | nil =>
    intro cur _ _ hinv sp hsp
    unfold extractLoop at hsp
    match cur with
    | none => simp [closeSpan] at hsp
    | some (ty, cs, ce) =>
      obtain ⟨h1, h2, _⟩ := hinv
      exact closeSpan_wf text ty cs ce h1 h2 sp hsp
  | cons hd toks ih =>
    intro cur hwf hchain hinv sp hsp
    obtain ⟨lab, s, e⟩ := hd
    rw [List.pairwise_cons] at hchain
    obtain ⟨hhd, hchain'⟩ := hchain
    have hwf' : ∀ t ∈ toks, ¬isSpecialTok t = true → t.2.1 ≤ t.2.2 ∧ t.2.2 ≤ text.length :=
      fun t ht => hwf t (List.mem_cons_of_mem _ ht)
    unfold extractLoop at hsp
    by_cases hspec : isSpecialTok (lab, s, e) = true
    · rw [if_pos hspec] at hsp
      refine ih cur hwf' hchain' ?_ sp hsp
      match cur with
      | none => trivial
      | some (ty, cs, ce) =>
        obtain ⟨h1, h2, h3⟩ := hinv
        exact ⟨h1, h2, fun t ht => h3 t (List.mem_cons_of_mem _ ht)⟩
    · rw [if_neg hspec] at hsp
      have htokwf := hwf (lab, s, e) (List.mem_cons_self _ _) hspec
      by_cases hB : labStartsB lab = true
      · rw [if_pos hB] at hsp
        rw [List.mem_append] at hsp
        rcases hsp with hsp | hsp
        · match cur with
          | none => simp [closeSpan] at hsp
          | some (ty, cs, ce) =>
            obtain ⟨h1, h2, _⟩ := hinv
            exact closeSpan_wf text ty cs ce h1 h2 sp hsp
        · refine ih (some (lab.drop 2, s, e)) hwf' hchain' ?_ sp hsp
          refine ⟨htokwf.1, htokwf.2, ?_⟩
          intro t ht htns
          exact hhd t ht hspec htns
      · rw [if_neg hB] at hsp
        match cur with
        | none =>
          exact ih none hwf' hchain' trivial sp hsp
        | some (ty, cs, ce) =>
          obtain ⟨h1, h2, h3⟩ := hinv
          dsimp only at hsp
          by_cases hI : (labStartsI lab = true ∧ ty = lab.drop 2)
          · rw [if_pos hI] at hsp
            refine ih (some (ty, cs, e)) hwf' hchain' ?_ sp hsp
            have hce : ce ≤ s := h3 (lab, s, e) (List.mem_cons_self _ _) hspec
            have hse : s ≤ e := htokwf.1
            have hel : e ≤ text.length := htokwf.2
            refine ⟨by omega, hel, ?_⟩
            intro t ht htns
            exact hhd t ht hspec htns
          · rw [if_neg hI] at hsp
            rw [List.mem_append] at hsp
            rcases hsp with hsp | hsp
            · exact closeSpan_wf text ty cs ce h1 h2 sp hsp
            · exact ih none hwf' hchain' trivial sp hsp

/-- C8 (amended): every span emitted by the decoder, when fed per-token
well-formed offsets (each non-special token has `start ≤ end ≤ length(text)`,
and non-special tokens appear in non-overlapping left-to-right order),
satisfies `0 ≤ start ≤ end ≤ length(text)`, is non-empty, and its stored
`text` equals the *whitespace-stripped* substring
`strip(source_text[start:end])` — not the raw substring, since the code
strips the slice but keeps the raw offsets (refuting the claim's equality
`text == source_text[start:end]`, see
`extract_span_text_not_raw_substring`). -/
theorem extract_spans_wf (text : List Char) (labels : List (List Char))
    (offsets : List (Nat × Nat))
    (hwf : ∀ t ∈ toksOf labels offsets,
      ¬isSpecialTok t = true → t.2.1 ≤ t.2.2 ∧ t.2.2 ≤ text.length)
    (hchain : (toksOf labels offsets).Pairwise TokChain) :
    ∀ sp ∈ extract text labels offsets, WfSpan text sp := by
  intro sp hsp
  rw [extract_eq_loop] at hsp
  split at hsp
  · simp at hsp
  · exact extractLoop_wf text (toksOf labels offsets) none hwf hchain trivial sp hsp

/-- C8 counterexample: a single token whose offsets cover a trailing space.
The emitted span stores the stripped text `"a"` with offsets `[0,2)`, so its
`text` is not the raw substring `source_text[0:2] = "a "`. -/
theorem extract_span_text_not_raw_substring :
    ¬ (∀ sp ∈ extract "a ".data ["B-PER".data] [(0, 2)],
        sp.text = pySlice "a ".data sp.start sp.endPos) := by
  decide

/-- Witness for `extract_spans_wf` at a concrete input. -/
theorem extract_spans_wf_witness :
    WfSpan "Bob works".data ⟨"PER".data, "Bob".data, 0, 3⟩ :=
  extract_spans_wf "Bob works".data ["B-PER".data, "O".data] [(0, 3), (4, 9)]
    (by decide) (by decide)
    ⟨"PER".data, "Bob".data, 0, 3⟩ (by decide)

/-- C3: the pattern-engine implementation and the manual scanner are *not*
extensionally equal — and the input exhibiting it is the example
`(050) 443-30-30` from `deletePhoneInformation`'s own docstring (line 33):
the regex pass truncates the match after the `{6,8}`-bounded tail and leaves
the final digit `0` unredacted, while the manual scanner (consistent with the
docstring and the spec's three classification rules) replaces the entire
number.  The spec's equivalence requirement is the documented intent; the
pattern-engine implementation is the slip. -/
theorem phone_implementations_disagree_on_docstring_example :
    deletePhoneInformationManual "(050) 443-30-30".data "resume".data
        = "[resume_PhoneNumber]".data
    ∧ deletePhoneInformation "(050) 443-30-30".data "resume".data
        = "[resume_PhoneNumber]0".data
    ∧ deletePhoneInformation "(050) 443-30-30".data "resume".data
        ≠ deletePhoneInformationManual "(050) 443-30-30".data "resume".data := by
  refine ⟨by decide, by decide, by decide⟩

/-! ## Lemmas about date parsing -/

theorem finishYear_shape {m : Nat} {r : List Char} {d : PDate}
    (h : finishYear m r = some d) :
    r.length = 4 ∧ (∀ c ∈ r, pyDigit c = true) ∧ d.month = m ∧ d.day = 1 := by
  match r with
  | [] => simp [finishYear] at h
  | [a] => simp [finishYear] at h
  | [a, b] => simp [finishYear] at h
  | [a, b, c] => simp [finishYear] at h
  | a :: b :: c :: e :: f :: rest => simp [finishYear] at h
  | [a, b, c, e] =>
    simp only [finishYear] at h
    split at h
    · rename_i hd
      obtain ⟨h1, h2, h3, h4⟩ := hd
      split at h
      · simp at h
      · rw [Option.some_inj] at h
        subst h
        refine ⟨rfl, ?_, rfl, rfl⟩
        intro x hx
        simp only [List.mem_cons, List.not_mem_nil, or_false] at hx
        rcases hx with rfl | rfl | rfl | rfl <;> assumption
    · simp at h

theorem ciStrip?_shape {pat s rest : List Char} (h : ciStrip? pat s = some rest) :
    lowerStr (s.take pat.length) = lowerStr pat ∧ rest = s.drop pat.length ∧
    pat.length ≤ s.length := by
  induction pat generalizing s with
  | nil =>
    unfold ciStrip? at h
    rw [Option.some_inj] at h
    subst h
    exact ⟨rfl, rfl, Nat.zero_le _⟩
  | cons p ps ih =>
    match s with
    | [] => simp [ciStrip?] at h
    | c :: cs =>
      unfold ciStrip? at h
      split at h
      · rename_i hlow
        obtain ⟨h1, h2, h3⟩ := ih h
        refine ⟨?_, h2, by simpa using h3⟩
        simp only [List.length_cons, List.take_succ_cons, lowerStr, List.map_cons]
          at h1 ⊢
        rw [hlow, h1]
      · simp at h

theorem monthAlts_shape {s : List Char} {mr : Nat × List Char}
    (h : mr ∈ monthAlts s) :
    ∃ k, (k = 1 ∨ k = 2) ∧ mr.2 = s.drop k ∧
      (∀ j, j < k → ∃ c, s.get? j = some c ∧ pyDigit c = true) := by
  match s with
  | [] => simp [monthAlts] at h
  | [c1] =>
    simp only [monthAlts, List.nil_append] at h
    split at h
    · rename_i hdig
      rw [List.mem_singleton] at h
      subst h
      refine ⟨1, Or.inl rfl, rfl, ?_⟩
      intro j hj
      interval_cases j
      exact ⟨c1, rfl, hdig.1⟩
    · simp at h
  | c1 :: c2 :: rest =>
    simp only [monthAlts] at h
    rw [List.mem_append, List.mem_append] at h
    rcases h with (h | h) | h
    · split at h
      · rename_i hc
        rw [List.mem_singleton] at h
        subst h
        refine ⟨2, Or.inr rfl, rfl, ?_⟩
        intro j hj
        interval_cases j
        · exact ⟨c1, rfl, by rw [hc.1]; decide⟩
        · refine ⟨c2, rfl, ?_⟩
          rcases hc.2 with rfl | rfl | rfl <;> decide
      · simp at h
    · split at h
      · rename_i hc
        rw [List.mem_singleton] at h
        subst h
        refine ⟨2, Or.inr rfl, rfl, ?_⟩
        intro j hj
        interval_cases j
        · exact ⟨c1, rfl, by rw [hc.1]; decide⟩
        · exact ⟨c2, rfl, hc.2.1⟩
      · simp at h
    · split at h
      · rename_i hdig
        rw [List.mem_singleton] at h
        subst h
        refine ⟨1, Or.inl rfl, rfl, ?_⟩
        intro j hj
        interval_cases j
        exact ⟨c1, rfl, hdig.1⟩
      · simp at h

theorem p_msep_shape {sep : Char} {s : List Char} {d : PDate}
    (h : p_msep sep s = some d) :
    ∃ k, (k = 1 ∨ k = 2) ∧ s.get? k = some sep ∧
      (∀ j, j < k → ∃ c, s.get? j = some c ∧ pyDigit c = true) ∧
      s.length = k + 5 ∧ d.day = 1 := by
  unfold p_msep at h
  obtain ⟨mr, hmem, hinner⟩ := List.exists_of_findSome?_eq_some h
  obtain ⟨k, hk, hdrop, hdig⟩ := monthAlts_shape hmem
  match hmr2 : mr.2 with
  | [] => rw [hmr2] at hinner; simp at hinner
  | c :: rest =>
    rw [hmr2] at hinner
    simp only at hinner
    split at hinner
    · rename_i hcsep
      subst hcsep
      obtain ⟨hlen4, _, _, hday⟩ := finishYear_shape hinner
      rw [hmr2] at hdrop
      refine ⟨k, hk, ?_, hdig, ?_, hday⟩
      · have : (s.drop k).get? 0 = some c := by rw [← hdrop]; rfl
        rwa [List.get?_drop, Nat.add_zero] at this
      · have hlen : (s.drop k).length = rest.length + 1 := by
          rw [← hdrop]
          rfl
        rw [List.length_drop] at hlen
        have hks : k ≤ s.length := by
          by_contra hlt
          push_neg at hlt
          have : s.length - k = 0 := by omega
          omega
        omega
    · simp at hinner

theorem p_nameY_shape {names : List (Nat × List Char)} {s : List Char} {d : PDate}
    (h : p_nameY names s = some d) :
    ∃ nm ∈ names, ∃ rest, ciStrip? nm.2 s = some rest ∧
      finishWsYear nm.1 rest = some d := by
  unfold p_nameY at h
  obtain ⟨nm, hmem, hinner⟩ := List.exists_of_findSome?_eq_some h
  rw [Option.bind_eq_some] at hinner
  obtain ⟨rest, hci, hfw⟩ := hinner
  exact ⟨nm, hmem, rest, hci, hfw⟩

theorem finishWsYear_shape {m : Nat} {rest : List Char} {d : PDate}
    (h : finishWsYear m rest = some d) :
    ∃ w ws, rest = w :: ws ∧ isPyWhite w = true ∧ d.month = m ∧ d.day = 1 := by
  match rest with
  | [] => simp [finishWsYear] at h
  | w :: ws =>
    simp only [finishWsYear] at h
    split at h
    · rename_i hw
      obtain ⟨_, _, hm, hd⟩ := finishYear_shape h
      exact ⟨w, ws, rfl, hw, hm, hd⟩
    · simp at h

theorem p_Y_shape {s : List Char} {d : PDate} (h : p_Y s = some d) :
    s.length = 4 ∧ (∃ c, s.get? 0 = some c ∧ pyDigit c = true) ∧ d.day = 1 := by
  obtain ⟨hlen, hdig, _, hday⟩ := finishYear_shape h
  refine ⟨hlen, ?_, hday⟩
  match s with
  | [] => simp at hlen
  | c :: rest => exact ⟨c, rfl, hdig c (List.mem_cons_self _ _)⟩

theorem lowerStr_take_get {s pat : List Char} (j : Nat) (hj : j < pat.length)
    (h : lowerStr (s.take pat.length) = lowerStr pat) :
    (s.get? j).map Char.toLower = (pat.get? j).map Char.toLower := by
  have h0 : (lowerStr (s.take pat.length)).get? j = (lowerStr pat).get? j := by rw [h]
  simp only [lowerStr] at h0
  rw [List.get?_map, List.get?_map, List.get?_take hj] at h0
  exact h0

theorem fullNames_ne_nil : ∀ mn ∈ fullMonthNames, mn.2 ≠ [] := by decide

theorem abbrevNames_ne_nil : ∀ mn ∈ abbrevMonthNames, mn.2 ≠ [] := by decide

theorem fullNames_len3 : ∀ mn ∈ fullMonthNames, 3 ≤ mn.2.length := by decide

theorem abbrevNames_len : ∀ mn ∈ abbrevMonthNames, mn.2.length = 3 := by decide

theorem fullNames_len3_may :
    ∀ mn ∈ fullMonthNames, mn.2.length = 3 → mn = (5, "May".data) := by decide

theorem abbrevNames_may :
    ∀ mn ∈ abbrevMonthNames, lowerStr mn.2 = "may".data → mn = (5, "May".data) := by
  decide

theorem fullNames_head_not_digit : ∀ mn ∈ fullMonthNames, ∀ c ∈ "0123456789".data,
    (mn.2.get? 0).map Char.toLower ≠ some (Char.toLower c) := by decide

theorem abbrevNames_head_not_digit : ∀ mn ∈ abbrevMonthNames, ∀ c ∈ "0123456789".data,
    (mn.2.get? 0).map Char.toLower ≠ some (Char.toLower c) := by decide

theorem fullNames_idx3_not_white : ∀ mn ∈ fullMonthNames, ∀ w ∈ pyWhite,
    (mn.2.get? 3).map Char.toLower ≠ some (Char.toLower w) := by decide

theorem fullNames_head_not_p :
    ∀ mn ∈ fullMonthNames, (mn.2.get? 0).map Char.toLower ≠ some 'p' := by decide

theorem abbrevNames_head_not_p :
    ∀ mn ∈ abbrevMonthNames, (mn.2.get? 0).map Char.toLower ≠ some 'p' := by decide

theorem digits_toLower_ne_p : ∀ c ∈ "0123456789".data, Char.toLower c ≠ 'p' := by
  decide

theorem p_nameY_head {names : List (Nat × List Char)} {s : List Char} {d : PDate}
    (hne : ∀ mn ∈ names, mn.2 ≠ []) (h : p_nameY names s = some d) :
    ∃ nm ∈ names, (s.get? 0).map Char.toLower = (nm.2.get? 0).map Char.toLower := by
  obtain ⟨nm, hmem, rest, hci, _⟩ := p_nameY_shape h
  obtain ⟨hlow, _, _⟩ := ciStrip?_shape hci
  exact ⟨nm, hmem,
    lowerStr_take_get 0 (List.length_pos.mpr (hne nm hmem)) hlow⟩

theorem p_msep_disjoint {sep1 sep2 : Char} {s : List Char} {d e : PDate}
    (hne : sep1 ≠ sep2) (h1d : pyDigit sep1 = false) (h2d : pyDigit sep2 = false)
    (h1 : p_msep sep1 s = some d) (h2 : p_msep sep2 s = some e) : False := by
  obtain ⟨k1, hk1, hg1, hdig1, hlen1, -⟩ := p_msep_shape h1
  obtain ⟨k2, hk2, hg2, hdig2, hlen2, -⟩ := p_msep_shape h2
  have hkk : k1 = k2 → False := by
    intro hk
    subst hk
    rw [hg1] at hg2
    exact hne (Option.some_inj.mp hg2)
  have hcross : ∀ (ka kb : Nat) (sa : Char), ka < kb →
      s.get? ka = some sa → pyDigit sa = false →
      (∀ j, j < kb → ∃ c, s.get? j = some c ∧ pyDigit c = true) → False := by
    intro ka kb sa hlt hga hsa hdb
    obtain ⟨c, hc, hcd⟩ := hdb ka hlt
    rw [hga] at hc
    rw [← Option.some_inj.mp hc] at hcd
    rw [hcd] at hsa
    exact Bool.noConfusion hsa
  rcases hk1 with rfl | rfl <;> rcases hk2 with rfl | rfl
  · exact hkk rfl
  · exact hcross 1 2 sep1 (by omega) hg1 h1d hdig2
  · exact hcross 1 2 sep2 (by omega) hg2 h2d hdig1
  · exact hkk rfl

theorem p_msep_p_Y_disjoint {sep : Char} {s : List Char} {d e : PDate}
    (h1 : p_msep sep s = some d) (h2 : p_Y s = some e) : False := by
  obtain ⟨k, hk, -, -, hlen, -⟩ := p_msep_shape h1
  obtain ⟨hlen4, -, -⟩ := p_Y_shape h2
  omega

theorem p_msep_p_nameY_disjoint {sep : Char} {s : List Char} {d e : PDate}
    {names : List (Nat × List Char)}
    (hne : ∀ mn ∈ names, mn.2 ≠ [])
    (hfact : ∀ mn ∈ names, ∀ c ∈ "0123456789".data,
      (mn.2.get? 0).map Char.toLower ≠ some (Char.toLower c))
    (h1 : p_msep sep s = some d) (h2 : p_nameY names s = some e) : False := by
  obtain ⟨k, hk, -, hdig, -, -⟩ := p_msep_shape h1
  obtain ⟨c, hc, hcd⟩ := hdig 0 (by omega)
  obtain ⟨nm, hmem, hlow⟩ := p_nameY_head hne h2
  rw [hc] at hlow
  exact hfact nm hmem c (of_decide_eq_true hcd) hlow.symm

theorem p_Y_p_nameY_disjoint {s : List Char} {d e : PDate}
    {names : List (Nat × List Char)}
    (hne : ∀ mn ∈ names, mn.2 ≠ [])
    (hfact : ∀ mn ∈ names, ∀ c ∈ "0123456789".data,
      (mn.2.get? 0).map Char.toLower ≠ some (Char.toLower c))
    (h1 : p_Y s = some d) (h2 : p_nameY names s = some e) : False := by
  obtain ⟨-, ⟨c, hc, hcd⟩, -⟩ := p_Y_shape h1
  obtain ⟨nm, hmem, hlow⟩ := p_nameY_head hne h2
  rw [hc] at hlow
  exact hfact nm hmem c (of_decide_eq_true hcd) hlow.symm

theorem p_BY_p_bY_agree {s : List Char} {d e : PDate}
    (h1 : p_BY s = some d) (h2 : p_bY s = some e) : d = e := by
  obtain ⟨nm1, hm1, r1, hci1, hfw1⟩ := p_nameY_shape h1
  obtain ⟨nm2, hm2, r2, hci2, hfw2⟩ := p_nameY_shape h2
  obtain ⟨hlow1, hr1, hlen1⟩ := ciStrip?_shape hci1
  obtain ⟨hlow2, hr2, hlen2⟩ := ciStrip?_shape hci2
  have h3 : nm2.2.length = 3 := abbrevNames_len nm2 hm2
  by_cases hL : nm1.2.length = 3
  · have hmay1 : nm1 = (5, "May".data) := fullNames_len3_may nm1 hm1 hL
    have hlowmay : lowerStr (s.take 3) = "may".data := by
      have := hlow1
      rw [hmay1] at this
      simpa using this
    have hmay2 : nm2 = (5, "May".data) := by
      refine abbrevNames_may nm2 hm2 ?_
      rw [← hlow2, h3, hlowmay]
    have hrr : r1 = r2 := by
      rw [hr1, hr2, hmay1, hmay2]
    rw [hmay1] at hfw1
    rw [hmay2] at hfw2
    rw [hrr] at hfw1
    simp only at hfw1 hfw2
    rw [hfw1] at hfw2
    exact Option.some_inj.mp hfw2
  · have h4 : 3 < nm1.2.length := by
      have := fullNames_len3 nm1 hm1
      omega
    obtain ⟨w, ws, hr2w, hwwhite, -, -⟩ := finishWsYear_shape hfw2
    have hsw : s.get? 3 = some w := by
      have hwdrop : (s.drop 3).get? 0 = some w := by
        rw [← h3, ← hr2, hr2w]
        rfl
      rwa [List.get?_drop, Nat.add_zero] at hwdrop
    have h0 := lowerStr_take_get 3 h4 hlow1
    rw [hsw] at h0
    exact absurd h0.symm (fullNames_idx3_not_white nm1 hm1 w (of_decide_eq_true hwwhite))

theorem p_msep_day {sep : Char} {s : List Char} {d : PDate}
    (h : p_msep sep s = some d) : d.day = 1 :=
  (p_msep_shape h).choose_spec.2.2.2.2

theorem p_nameY_day {names : List (Nat × List Char)} {s : List Char} {d : PDate}
    (h : p_nameY names s = some d) : d.day = 1 := by
  obtain ⟨nm, -, rest, -, hfw⟩ := p_nameY_shape h
  obtain ⟨-, -, -, -, -, hday⟩ := finishWsYear_shape hfw
  exact hday

theorem p_Y_day {s : List Char} {d : PDate} (h : p_Y s = some d) : d.day = 1 :=
  (p_Y_shape h).2.2

/-- The last-successful-format fold, characterised by the first success of the
reversed format list. -/
theorem foldl_lastwins (fs : List (List Char → Option PDate)) (t : List Char)
    (acc : Option PDate) :
    fs.foldl (fun acc p => match p t with | some x => some x | none => acc) acc
      = match fs.reverse.findSome? (fun p => p t) with
        | some d => some d
        | none => acc := by
  induction fs generalizing acc with
  | nil => rfl
  | cons f fs ih =>
    rw [List.foldl_cons, ih]
    rw [List.reverse_cons, List.findSome?_append]
    cases hfs : fs.reverse.findSome? (fun p => p t) with
    | some d => rfl
    | none =>
      simp only [Option.none_or, List.findSome?_cons, List.findSome?_nil]
      cases hf : f t <;> rfl

/-- Every parser in the format list assigns day `1`. -/
theorem dateFormats_day {p : List Char → Option PDate} (hp : p ∈ dateFormats)
    {t : List Char} {d : PDate} (h : p t = some d) : d.day = 1 := by
  simp only [dateFormats, List.mem_cons, List.not_mem_nil, or_false] at hp
  rcases hp with rfl | rfl | rfl | rfl | rfl | rfl
  · exact p_msep_day h
  · exact p_msep_day h
  · exact p_msep_day h
  · exact p_nameY_day h
  · exact p_nameY_day h
  · exact p_Y_day h

/-- No two formats parse the same string to different dates. -/
theorem dateFormats_agree {p q : List Char → Option PDate}
    (hp : p ∈ dateFormats) (hq : q ∈ dateFormats) {t : List Char} {d e : PDate}
    (h1 : p t = some d) (h2 : q t = some e) : d = e := by
  have hBb : ∀ {d e : PDate}, p_BY t = some d → p_bY t = some e → d = e :=
    fun h1 h2 => p_BY_p_bY_agree h1 h2
  have hsepname : ∀ (sep : Char) (names : List (Nat × List Char)) {d e : PDate},
      (∀ mn ∈ names, mn.2 ≠ []) →
      (∀ mn ∈ names, ∀ c ∈ "0123456789".data,
        (mn.2.get? 0).map Char.toLower ≠ some (Char.toLower c)) →
      p_msep sep t = some d → p_nameY names t = some e → False := by
    intro sep names d e hne hf h1 h2
    exact p_msep_p_nameY_disjoint hne hf h1 h2
  simp only [dateFormats, List.mem_cons, List.not_mem_nil, or_false] at hp hq
  have hFne := fullNames_ne_nil
  have hBne := abbrevNames_ne_nil
  have hFhd := fullNames_head_not_digit
  have hBhd := abbrevNames_head_not_digit
  rcases hp with rfl | rfl | rfl | rfl | rfl | rfl <;>
    rcases hq with rfl | rfl | rfl | rfl | rfl | rfl
  · rw [h1] at h2; exact Option.some_inj.mp h2
  · exact (p_msep_disjoint (by decide) (by decide) (by decide) h1 h2).elim
  · exact (p_msep_disjoint (by decide) (by decide) (by decide) h1 h2).elim
  · exact (hsepname '.' fullMonthNames hFne hFhd h1 h2).elim
  · exact (hsepname '.' abbrevMonthNames hBne hBhd h1 h2).elim
  · exact (p_msep_p_Y_disjoint h1 h2).elim
  · exact (p_msep_disjoint (by decide) (by decide) (by decide) h1 h2).elim
  · rw [h1] at h2; exact Option.some_inj.mp h2
  · exact (p_msep_disjoint (by decide) (by decide) (by decide) h1 h2).elim
  · exact (hsepname '/' fullMonthNames hFne hFhd h1 h2).elim
  · exact (hsepname '/' abbrevMonthNames hBne hBhd h1 h2).elim
  · exact (p_msep_p_Y_disjoint h1 h2).elim
  · exact (p_msep_disjoint (by decide) (by decide) (by decide) h1 h2).elim
  · exact (p_msep_disjoint (by decide) (by decide) (by decide) h1 h2).elim
  · rw [h1] at h2; exact Option.some_inj.mp h2
  · exact (hsepname '\\' fullMonthNames hFne hFhd h1 h2).elim
  · exact (hsepname '\\' abbrevMonthNames hBne hBhd h1 h2).elim
  · exact (p_msep_p_Y_disjoint h1 h2).elim
  · exact (hsepname '.' fullMonthNames hFne hFhd h2 h1).elim
  · exact (hsepname '/' fullMonthNames hFne hFhd h2 h1).elim
  · exact (hsepname '\\' fullMonthNames hFne hFhd h2 h1).elim
  · rw [h1] at h2; exact Option.some_inj.mp h2
  · exact hBb h1 h2
  · exact (p_Y_p_nameY_disjoint hFne hFhd h2 h1).elim
  · exact (hsepname '.' abbrevMonthNames hBne hBhd h2 h1).elim
  · exact (hsepname '/' abbrevMonthNames hBne hBhd h2 h1).elim
  · exact (hsepname '\\' abbrevMonthNames hBne hBhd h2 h1).elim
  · exact (hBb h2 h1).symm
  · rw [h1] at h2; exact Option.some_inj.mp h2
  · exact (p_Y_p_nameY_disjoint hBne hBhd h2 h1).elim
  · exact (p_msep_p_Y_disjoint h2 h1).elim
  · exact (p_msep_p_Y_disjoint h2 h1).elim
  · exact (p_msep_p_Y_disjoint h2 h1).elim
  · exact (p_Y_p_nameY_disjoint hFne hFhd h1 h2).elim
  · exact (p_Y_p_nameY_disjoint hBne hBhd h1 h2).elim
  · rw [h1] at h2; exact Option.some_inj.mp h2

theorem tryFormats_mem {t : List Char} {d : PDate} (h : tryFormats t = some d) :
    ∃ p ∈ dateFormats, p t = some d := by
  unfold tryFormats at h
  rw [foldl_lastwins] at h
  cases hfs : dateFormats.reverse.findSome? (fun p => p t) with
  | none => rw [hfs] at h; simp at h
  | some x =>
    rw [hfs] at h
    simp only at h
    obtain rfl := Option.some_inj.mp h
    obtain ⟨p, hp, hpt⟩ := List.exists_of_findSome?_eq_some hfs
    exact ⟨p, List.mem_reverse.mp hp, hpt⟩

/-- Because no two formats disagree on any string, the last-successful-format
loop computes the same date as a first-successful-format scan. -/
theorem tryFormats_eq_findSome (t : List Char) :
    tryFormats t = dateFormats.findSome? (fun p => p t) := by
  unfold tryFormats
  rw [foldl_lastwins]
  cases h1 : dateFormats.reverse.findSome? (fun p => p t) with
  | none =>
    simp only
    cases h2 : dateFormats.findSome? (fun p => p t) with
    | none => rfl
    | some e =>
      obtain ⟨p, hp, hpt⟩ := List.exists_of_findSome?_eq_some h2
      rw [List.findSome?_eq_none] at h1
      rw [h1 p (List.mem_reverse.mpr hp)] at hpt
      exact Option.noConfusion hpt
  | some x =>
    simp only
    obtain ⟨p, hp, hpt⟩ := List.exists_of_findSome?_eq_some h1
    rw [List.mem_reverse] at hp
    cases h2 : dateFormats.findSome? (fun p => p t) with
    | none =>
      rw [List.findSome?_eq_none] at h2
      rw [h2 p hp] at hpt
      exact Option.noConfusion hpt
    | some e =>
      obtain ⟨q, hq, hqt⟩ := List.exists_of_findSome?_eq_some h2
      rw [dateFormats_agree hp hq hpt hqt]

/-- C6: for every successfully parsed date endpoint the anchor-date
normalization terminates without error and returns exactly the
spec-described anchor: the 1st of the following month for a parsed day after
the 14th (December rolling to January of the next year), the 1st of the
parsed month otherwise.  (Every date the six formats can produce has parsed
day `1` — none carries a day directive — so the roll-forward branch is
vacuously satisfied; the `datetime.replace`-on-the-class slip of line 48
is unreachable from parsed input.) -/
theorem convert_to_datetime_anchor (now : PDate) (s : List Char) (d : PDate)
    (h : tryFormats (normalizeDateStr s) = some d) :
    convert_to_datetime now s = .ok (anchorSpec d) := by
  obtain ⟨p, hp, hpt⟩ := tryFormats_mem h
  have hday : d.day = 1 := dateFormats_day hp hpt
  unfold convert_to_datetime
  rw [h]
  simp [normalizeAnchor, anchorSpec, hday]

/-- Witness for `convert_to_datetime_anchor` at a concrete input. -/
theorem convert_to_datetime_anchor_witness :
    convert_to_datetime ⟨2024, 5, 17⟩ "06.2013".data
      = .ok (anchorSpec ⟨2013, 6, 1⟩) :=
  convert_to_datetime_anchor ⟨2024, 5, 17⟩ "06.2013".data ⟨2013, 6, 1⟩ (by decide)

theorem tryFormats_present {t : List Char} (h : lowerStr t = "present".data) :
    tryFormats t = none := by
  rw [tryFormats_eq_findSome]
  rw [List.findSome?_eq_none]
  intro p hp
  have hlen : t.length = 7 := by
    have hl := congrArg List.length h
    simpa [lowerStr] using hl
  have hhead : (t.get? 0).map Char.toLower = some 'p' := by
    have h0 : (lowerStr t).get? 0 = some 'p' := by rw [h]; rfl
    rw [lowerStr, List.get?_map] at h0
    exact h0
  cases hpt : p t with
  | none => rfl
  | some d =>
    exfalso
    have hmsep : ∀ sep, p_msep sep t = some d → False := by
      intro sep hs
      obtain ⟨k, hk, -, hdig, -, -⟩ := p_msep_shape hs
      obtain ⟨c, hc, hcd⟩ := hdig 0 (by omega)
      rw [hc] at hhead
      simp only [Option.map_some'] at hhead
      exact digits_toLower_ne_p c (of_decide_eq_true hcd) (Option.some_inj.mp hhead)
    have hname : ∀ names, (∀ mn ∈ names, mn.2 ≠ []) →
        (∀ mn ∈ names, (mn.2.get? 0).map Char.toLower ≠ some 'p') →
        p_nameY names t = some d → False := by
      intro names hnnil hfact hs
      obtain ⟨nm, hmem, hlow⟩ := p_nameY_head hnnil hs
      exact hfact nm hmem (hlow.symm.trans hhead)
    simp only [dateFormats, List.mem_cons, List.not_mem_nil, or_false] at hp
    rcases hp with rfl | rfl | rfl | rfl | rfl | rfl
    · exact hmsep '.' hpt
    · exact hmsep '/' hpt
    · exact hmsep '\\' hpt
    · exact hname fullMonthNames fullNames_ne_nil fullNames_head_not_p hpt
    · exact hname abbrevMonthNames abbrevNames_ne_nil abbrevNames_head_not_p hpt
    · obtain ⟨hlen4, -, -⟩ := p_Y_shape hpt
      omega

/-- C7 (amended): `convert_to_datetime` never raises and behaves exactly as
the spec-modelled `convertSpec`: `"present"` in any casing maps to the
reference date; otherwise the formats `MM.YYYY`, `MM/YYYY`, `MM\YYYY`
(the format the claim's list omits), full month + `YYYY`, abbreviated
month + `YYYY`, `YYYY` are attempted in that order and the first successful
parse wins (the code keeps the *last* success, but no string parses under
two formats to different dates, so first and last coincide); an endpoint
parsing under none of the formats falls back to the reference date. -/
theorem convert_to_datetime_eq_spec (now : PDate) (s : List Char) :
    convert_to_datetime now s = .ok (convertSpec now s) := by
  unfold convert_to_datetime convertSpec
  by_cases hp : lowerStr (normalizeDateStr s) = "present".data
  · rw [tryFormats_present hp, if_pos hp]
  · rw [if_neg hp, tryFormats_eq_findSome]
    cases hfs : dateFormats.findSome? (fun p => p (normalizeDateStr s)) with
    | none => rfl
    | some d =>
      obtain ⟨p, hpp, hpt⟩ := List.exists_of_findSome?_eq_some hfs
      have hday : d.day = 1 := dateFormats_day hpp hpt
      simp [normalizeAnchor, anchorSpec, hday]

/-- C7 counterexample: the endpoint `06\2013` parses under the `%m\%Y`
format that the claim's format list omits, so the code anchors it to
June 1, 2013 while the claim's five-format description falls back to the
reference date. -/
theorem convert_misses_backslash_format :
    convert_to_datetime ⟨2020, 1, 1⟩ ("06\\2013".data) = .ok ⟨2013, 6, 1⟩
    ∧ convertSpecFive ⟨2020, 1, 1⟩ ("06\\2013".data) = ⟨2020, 1, 1⟩
    ∧ convert_to_datetime ⟨2020, 1, 1⟩ ("06\\2013".data)
        ≠ .ok (convertSpecFive ⟨2020, 1, 1⟩ ("06\\2013".data)) := by
  refine ⟨by decide, by decide, by decide⟩

theorem subTrie_cons (t : Trie) (c : Char) (w : List Char) :
    subTrie t (c :: w) =
      match childFind t.children c with
      | some tc => subTrie tc w
      | none => none := rfl

theorem childFind_nil (c : Char) : childFind [] c = none := rfl

theorem childFind_cons (d : Char) (t : Trie) (rest : List (Char × Trie)) (c : Char) :
    childFind ((d, t) :: rest) c = if d = c then some t else childFind rest c := rfl

theorem updateChild_cons (d : Char) (u : Trie) (rest : List (Char × Trie))
    (c : Char) (t : Trie) :
    updateChild ((d, u) :: rest) c t =
      if d = c then (d, t) :: rest else (d, u) :: updateChild rest c t := rfl

theorem childFind_update_self {cs : List (Char × Trie)} {c : Char} {u : Trie}
    (t : Trie) (h : childFind cs c = some u) :
    childFind (updateChild cs c t) c = some t := by
  induction cs with
  | nil => simp [childFind_nil] at h
  | cons p rest ih =>
    obtain ⟨d, v⟩ := p
    rw [childFind_cons] at h
    rw [updateChild_cons]
    by_cases hdc : d = c
    · rw [if_pos hdc, childFind_cons, if_pos hdc]
    · rw [if_neg hdc] at h
      rw [if_neg hdc, childFind_cons, if_neg hdc]
      exact ih h

theorem childFind_update_other {cs : List (Char × Trie)} {c d : Char} (t : Trie)
    (h : d ≠ c) : childFind (updateChild cs c t) d = childFind cs d := by
  induction cs with
  | nil => rfl
  | cons p rest ih =>
    obtain ⟨e, v⟩ := p
    rw [updateChild_cons]
    by_cases hec : e = c
    · have hne : ¬(e = d) := by
        intro hed
        rw [hed] at hec
        exact h hec
      rw [if_pos hec, childFind_cons, childFind_cons, if_neg hne, if_neg hne]
    · rw [if_neg hec, childFind_cons, childFind_cons]
      by_cases hed : e = d
      · rw [if_pos hed, if_pos hed]
      · rw [if_neg hed, if_neg hed]
        exact ih

theorem childFind_append {cs : List (Char × Trie)} {c : Char} (d : Char) (t : Trie)
    (h : childFind cs c = none) :
    childFind (cs ++ [(c, t)]) d = if c = d then some t else childFind cs d := by
  induction cs with
  | nil =>
    rw [List.nil_append, childFind_cons, childFind_nil]
  | cons p rest ih =>
    obtain ⟨e, v⟩ := p
    rw [childFind_cons] at h
    by_cases hec : e = c
    · rw [if_pos hec] at h
      exact Option.noConfusion h
    · rw [if_neg hec] at h
      rw [List.cons_append, childFind_cons, childFind_cons]
      by_cases hed : e = d
      · rw [if_pos hed, if_pos hed,
          if_neg (fun hcd => hec (hed ▸ hcd.symm))]
      · rw [if_neg hed, if_neg hed]
        exact ih h

theorem trieFind_empty_node (w : List Char) :
    trieFind (.node none []) w = none := by
  match w with
  | [] => rfl
  | c :: w' => rfl

theorem trieFind_insert (k : List Char) (t : Trie) (sk : List Char)
    (w : List Char) :
    trieFind (trieInsert t k sk) w = if w = k then some sk else trieFind t w := by
  induction k generalizing t w with
  | nil =>
    obtain ⟨stop, ch⟩ := t
    match w with
    | [] => rfl
    | c :: w' =>
      rw [if_neg (by simp)]
      rfl
  | cons c k' ih =>
    obtain ⟨stop, ch⟩ := t
    show trieFind (match childFind ch c with
      | some u => Trie.node stop (updateChild ch c (trieInsert u k' sk))
      | none => Trie.node stop (ch ++ [(c, trieInsert (.node none []) k' sk)])) w
      = if w = c :: k' then some sk else trieFind (Trie.node stop ch) w
    cases hcf : childFind ch c with
    | some u =>
      match w with
      | [] => rw [if_neg (by simp)]; rfl
      | d :: w' =>
        unfold trieFind
        rw [subTrie_cons, subTrie_cons]
        simp only [Trie.children]
        by_cases hdc : d = c
        · subst hdc
          rw [childFind_update_self _ hcf, hcf]
          have := ih u w'
          unfold trieFind at this
          by_cases hwk : w' = k'
          · rw [if_pos hwk] at this
            rw [if_pos (by rw [hwk])]
            exact this
          · rw [if_neg hwk] at this
            rw [if_neg (by intro hh; exact hwk (List.cons.inj hh).2)]
            exact this
        · rw [childFind_update_other _ hdc]
          rw [if_neg (by intro hh; exact hdc (List.cons.inj hh).1)]
    | none =>
      match w with
      | [] => rw [if_neg (by simp)]; rfl
      | d :: w' =>
        unfold trieFind
        rw [subTrie_cons, subTrie_cons]
        simp only [Trie.children]
        rw [childFind_append d _ hcf]
        by_cases hdc : d = c
        · subst hdc
          rw [if_pos rfl, hcf]
          have := ih (.node none []) w'
          unfold trieFind at this
          by_cases hwk : w' = k'
          · rw [if_pos hwk] at this
            rw [if_pos (by rw [hwk])]
            exact this
          · rw [if_neg hwk] at this
            rw [if_neg (by intro hh; exact hwk (List.cons.inj hh).2)]
            rw [this]
            have h2 := trieFind_empty_node w'
            unfold trieFind at h2
            rw [h2]
            cases subTrie (Trie.node stop ch) (d :: w') <;> rfl
        · rw [if_neg (fun hcd => hdc hcd.symm)]
          rw [if_neg (by intro hh; exact hdc (List.cons.inj hh).1)]

theorem subTrie_empty_node_isSome (w : List Char) :
    (subTrie (.node none []) w).isSome = true ↔ w = [] := by
  match w with
  | [] => simp [subTrie]
  | c :: w' =>
    rw [subTrie_cons]
    simp [Trie.children, childFind_nil]

theorem subTrie_insert_isSome (k : List Char) (t : Trie) (sk : List Char)
    (w : List Char) :
    (subTrie (trieInsert t k sk) w).isSome = true ↔
      (subTrie t w).isSome = true ∨ k.take w.length = w := by
  induction k generalizing t w with
  | nil =>
    obtain ⟨stop, ch⟩ := t
    match w with
    | [] => simp [subTrie, trieInsert]
    | c :: w' =>
      show (subTrie (.node (some sk) ch) (c :: w')).isSome = true ↔ _
      rw [subTrie_cons, subTrie_cons]
      simp only [Trie.children, List.take_nil]
      constructor
      · intro hh
        exact Or.inl hh
      · intro hh
        rcases hh with hh | hh
        · exact hh
        · exact absurd hh (by simp)
  | cons c k' ih =>
    obtain ⟨stop, ch⟩ := t
    show (subTrie (match childFind ch c with
      | some u => Trie.node stop (updateChild ch c (trieInsert u k' sk))
      | none => Trie.node stop (ch ++ [(c, trieInsert (.node none []) k' sk)])) w).isSome
        = true ↔ _
    cases hcf : childFind ch c with
    | some u =>
      match w with
      | [] => simp [subTrie]
      | d :: w' =>
        rw [subTrie_cons, subTrie_cons]
        simp only [Trie.children]
        by_cases hdc : d = c
        · subst hdc
          rw [childFind_update_self _ hcf, hcf]
          rw [ih u w']
          simp only [List.length_cons, List.take_succ_cons]
          constructor
          · intro hh
            rcases hh with hh | hh
            · exact Or.inl hh
            · exact Or.inr (by rw [hh])
          · intro hh
            rcases hh with hh | hh
            · exact Or.inl hh
            · exact Or.inr (List.cons.inj hh).2
        · rw [childFind_update_other _ hdc]
          simp only [List.length_cons, List.take_succ_cons]
          constructor
          · intro hh
            exact Or.inl hh
          · intro hh
            rcases hh with hh | hh
            · exact hh
            · exact absurd (List.cons.inj hh).1 (fun hcd => hdc hcd.symm)
    | none =>
      match w with
      | [] => simp [subTrie]
      | d :: w' =>
        rw [subTrie_cons, subTrie_cons]
        simp only [Trie.children]
        rw [childFind_append d _ hcf]
        by_cases hdc : d = c
        · subst hdc
          rw [if_pos rfl, hcf]
          rw [ih (.node none []) w']
          rw [subTrie_empty_node_isSome]
          simp only [List.length_cons, List.take_succ_cons]
          constructor
          · intro hh
            rcases hh with hh | hh
            · exact Or.inr (by rw [hh]; simp)
            · exact Or.inr (by rw [hh])
          · intro hh
            rcases hh with hh | hh
            · simp at hh
            · exact Or.inr (List.cons.inj hh).2
        · rw [if_neg (fun hcd => hdc hcd.symm)]
          simp only [List.length_cons, List.take_succ_cons]
          constructor
          · intro hh
            exact Or.inl hh
          · intro hh
            rcases hh with hh | hh
            · exact hh
            · exact absurd (List.cons.inj hh).1 (fun hcd => hdc hcd.symm)

theorem create_search_dict_append (l : List (List Char)) (sk : List Char) :
    create_search_dict (l ++ [sk])
      = trieInsert (create_search_dict l) (lowerStr sk) sk := by
  simp [create_search_dict, List.foldl_append]

theorem trieFind_build (l : List (List Char)) (w : List Char) :
    trieFind (create_search_dict l) w
      = l.reverse.findSome? (fun sk => if lowerStr sk = w then some sk else none) := by
  induction l using List.reverseRecOn with
  | nil => simp [create_search_dict, trieFind_empty_node]
  | append_singleton l sk ih =>
    rw [create_search_dict_append, trieFind_insert, List.reverse_append]
    simp only [List.reverse_singleton, List.singleton_append, List.findSome?_cons]
    by_cases h : lowerStr sk = w
    · rw [if_pos h.symm, if_pos h]
    · rw [if_neg (fun hh => h hh.symm), if_neg h]
      exact ih

theorem subTrie_build_isSome (l : List (List Char)) (w : List Char) :
    (subTrie (create_search_dict l) w).isSome = true ↔
      w = [] ∨ ∃ sk ∈ l, (lowerStr sk).take w.length = w := by
  induction l using List.reverseRecOn with
  | nil =>
    rw [show create_search_dict [] = .node none [] from rfl,
      subTrie_empty_node_isSome]
    simp
  | append_singleton l sk ih =>
    rw [create_search_dict_append, subTrie_insert_isSome, ih]
    constructor
    · rintro ((rfl | ⟨sk', hm, hts⟩) | hts)
      · exact Or.inl rfl
      · exact Or.inr ⟨sk', by simp [hm], hts⟩
      · exact Or.inr ⟨sk, by simp, hts⟩
    · rintro (rfl | ⟨sk', hm, hts⟩)
      · exact Or.inl (Or.inl rfl)
      · rw [List.mem_append] at hm
        rcases hm with hm | hm
        · exact Or.inl (Or.inr ⟨sk', hm, hts⟩)
        · rw [List.mem_singleton] at hm
          subst hm
          exact Or.inr hts

theorem findSome?_lower_unique {l₁ l₂ : List (List Char)} (hperm : l₁.Perm l₂)
    (hnodup : (l₁.map lowerStr).Nodup) (w : List Char) :
    l₁.reverse.findSome? (fun sk => if lowerStr sk = w then some sk else none)
      = l₂.reverse.findSome? (fun sk => if lowerStr sk = w then some sk else none) := by
  have hmem : ∀ {l : List (List Char)} {v : List Char},
      l.reverse.findSome? (fun sk => if lowerStr sk = w then some sk else none)
        = some v → v ∈ l ∧ lowerStr v = w := by
    intro l v h
    obtain ⟨sk, hm, hsk⟩ := List.exists_of_findSome?_eq_some h
    rw [List.mem_reverse] at hm
    split at hsk
    · rename_i hw
      rw [Option.some_inj] at hsk
      subst hsk
      exact ⟨hm, hw⟩
    · exact Option.noConfusion hsk
  cases h1 : l₁.reverse.findSome?
      (fun sk => if lowerStr sk = w then some sk else none) with
  | none =>
    rw [List.findSome?_eq_none] at h1
    symm
    rw [List.findSome?_eq_none]
    intro sk hm
    rw [List.mem_reverse] at hm
    exact h1 sk (List.mem_reverse.mpr (hperm.mem_iff.mpr hm))
  | some v =>
    obtain ⟨hv1, hvw⟩ := hmem h1
    cases h2 : l₂.reverse.findSome?
        (fun sk => if lowerStr sk = w then some sk else none) with
    | none =>
      rw [List.findSome?_eq_none] at h2
      have hcontra := h2 v (List.mem_reverse.mpr (hperm.mem_iff.mp hv1))
      rw [if_pos hvw] at hcontra
      exact Option.noConfusion hcontra
    | some u =>
      obtain ⟨hu2, huw⟩ := hmem h2
      have hu1 : u ∈ l₁ := hperm.mem_iff.mpr hu2
      rw [List.inj_on_of_nodup_map hnodup hv1 hu1 (by rw [hvw, huw])]

theorem subTrie_one (t : Trie) (c : Char) : subTrie t [c] = childFind t.children c := by
  rw [subTrie_cons]
  cases childFind t.children c <;> rfl

theorem walkTrie_congr (text : List Char) (start : Nat) (t₁ t₂ : Trie)
    (hR : ∀ w, (subTrie t₁ w).isSome = (subTrie t₂ w).isSome ∧
      trieFind t₁ w = trieFind t₂ w) :
    ∀ (rest : List Char) (pos : Nat),
      walkTrie text start t₁ rest pos = walkTrie text start t₂ rest pos := by
  intro rest
  induction rest generalizing t₁ t₂ with
  | nil => intro pos; rfl
  | cons c rest ih =>
    intro pos
    have hc := (hR [c]).1
    rw [subTrie_one, subTrie_one] at hc
    cases hc1 : childFind t₁.children c with
    | none =>
      cases hc2 : childFind t₂.children c with
      | none => simp [walkTrie, hc1, hc2]
      | some u =>
        rw [hc1, hc2] at hc
        simp at hc
    | some u₁ =>
      cases hc2 : childFind t₂.children c with
      | none =>
        rw [hc1, hc2] at hc
        simp at hc
      | some u₂ =>
        have hstop : u₁.stop = u₂.stop := by
          have h2 := (hR [c]).2
          unfold trieFind at h2
          rw [subTrie_one, subTrie_one, hc1, hc2] at h2
          exact h2
        have hR' : ∀ w, (subTrie u₁ w).isSome = (subTrie u₂ w).isSome ∧
            trieFind u₁ w = trieFind u₂ w := by
          intro w
          have h3 := hR (c :: w)
          unfold trieFind at h3
          rw [subTrie_cons, subTrie_cons, hc1, hc2] at h3
          exact h3
        simp only [walkTrie, hc1, hc2, hstop]
        rw [ih u₁ u₂ hR']

/-- C9 (amended): the scan result is invariant under the insertion order of
the dictionary terms *provided* no two terms share the same lowercased form;
in fact the discovery-ordered result list is then identical, not merely
equal as a set.  Without that proviso the claim fails
(`extract_skills_order_sensitive_on_case_duplicates`): for terms with equal
lowercased forms, the later insertion overwrites the stored canonical form. -/
theorem extract_skills_order_invariant (l₁ l₂ : List (List Char)) (t : List Char)
    (hperm : l₁.Perm l₂) (hnodup : (l₁.map lowerStr).Nodup) :
    extract_skills l₁ t = extract_skills l₂ t := by
  unfold extract_skills
  have hboolext : ∀ {a b : Bool}, (a = true ↔ b = true) → a = b := by
    intro a b h
    cases a <;> cases b <;> simp_all
  have hR : ∀ w, (subTrie (create_search_dict l₁) w).isSome
        = (subTrie (create_search_dict l₂) w).isSome ∧
      trieFind (create_search_dict l₁) w = trieFind (create_search_dict l₂) w := by
    intro w
    constructor
    · refine hboolext ?_
      rw [subTrie_build_isSome, subTrie_build_isSome]
      constructor
      · rintro (rfl | ⟨sk, hm, hts⟩)
        · exact Or.inl rfl
        · exact Or.inr ⟨sk, hperm.mem_iff.mp hm, hts⟩
      · rintro (rfl | ⟨sk, hm, hts⟩)
        · exact Or.inl rfl
        · exact Or.inr ⟨sk, hperm.mem_iff.mpr hm, hts⟩
    · rw [trieFind_build, trieFind_build]
      exact findSome?_lower_unique hperm hnodup w
  have hwalk : ∀ (start : Nat) (rest : List Char) (pos : Nat),
      walkTrie (normalizeText t) start (create_search_dict l₁) rest pos
        = walkTrie (normalizeText t) start (create_search_dict l₂) rest pos :=
    fun start => walkTrie_congr (normalizeText t) start _ _ hR
  simp only [hwalk]

/-- C9 counterexample: the dictionary terms `SQL` and `sql` share a lowercased
form; whichever is inserted last supplies the stored canonical term, so the
two insertion orders scan the text `sql` to different result sets. -/
theorem extract_skills_order_sensitive_on_case_duplicates :
    extract_skills ["SQL".data, "sql".data] "sql".data = ["sql".data]
    ∧ extract_skills ["sql".data, "SQL".data] "sql".data = ["SQL".data]
    ∧ extract_skills ["SQL".data, "sql".data] "sql".data
        ≠ extract_skills ["sql".data, "SQL".data] "sql".data := by
  refine ⟨by decide, by decide, by decide⟩

/-- Witness for `extract_skills_order_invariant` at a concrete input. -/
theorem extract_skills_order_invariant_witness :
    extract_skills ["Python".data, "SQL".data] "I use SQL daily".data
      = extract_skills ["SQL".data, "Python".data] "I use SQL daily".data :=
  extract_skills_order_invariant ["Python".data, "SQL".data]
    ["SQL".data, "Python".data] "I use SQL daily".data
    (by decide) (by decide)

/-- Length of a Python slice with in-range bounds. -/
lemma pySlice_length (s : List Char) (a b : Nat) (hab : a ≤ b)
    (hb : b ≤ s.length) : (pySlice s a b).length = b - a := by
  simp only [pySlice, List.length_drop, List.length_take]
  omega

/-- Characters of a Python slice with in-range bounds. -/
lemma pySlice_get (s : List Char) (a b j : Nat) (hj : j < b - a)
    (hb : b ≤ s.length) : (pySlice s a b).get? j = s.get? (a + j) := by
  unfold pySlice
  rw [List.get?_drop]
  exact List.get?_take (by omega)

/-- C5 (amended): `get_skills_duration` attributes to the `i`-th date-range
match the substring whose `j`-th character is `text[match_end(i) + j]`,
running up to the start of match `i + 1` when one exists, but only up to
index `len(text) - 1` — *excluding the final character of the text* — for
the last match (line 73 computes `end_ind = len(text) - 1`, not
`len(text)`; the original claim — last segment extends to the end of the
text — is refuted by `segmentsOf_excludes_final_char`). -/
theorem segment_attribution (text : List Char) (i : Nat) (m : MatchRes)
    (h : (dateMatches text).get? i = some m) :
    ∃ seg, (segmentsOf text).get? i = some seg ∧
      (∀ m2, (dateMatches text).get? (i + 1) = some m2 → m.me ≤ m2.ms →
        m2.ms ≤ text.length →
        seg.length = m2.ms - m.me ∧
        ∀ j, j < seg.length → seg.get? j = text.get? (m.me + j)) ∧
      ((dateMatches text).get? (i + 1) = none → m.me ≤ text.length - 1 →
        seg.length = text.length - 1 - m.me ∧
        ∀ j, j < seg.length → seg.get? j = text.get? (m.me + j)) := by
  have hi : i < (dateMatches text).length := by
    by_contra hn
    rw [List.get?_eq_none.mpr (le_of_not_lt hn)] at h
    exact Option.noConfusion h
  cases hnext : (dateMatches text).get? (i + 1) with
  | some m2 =>
    refine ⟨pySlice text m.me m2.ms, ?_, ?_, ?_⟩
    · unfold segmentsOf
      rw [List.get?_map, List.get?_range hi]
      simp only [Option.map_some', h, hnext]
    · intro m2' h2 hle hbnd
      injection h2 with h2
      subst h2
      refine ⟨pySlice_length _ _ _ hle hbnd, ?_⟩
      intro j hj
      rw [pySlice_length _ _ _ hle hbnd] at hj
      exact pySlice_get _ _ _ j hj hbnd
    · intro hnone
      exact Option.noConfusion hnone
  | none =>
    refine ⟨pySlice text m.me (text.length - 1), ?_, ?_, ?_⟩
    · unfold segmentsOf
      rw [List.get?_map, List.get?_range hi]
      simp only [Option.map_some', h, hnext]
    · intro m2' h2 _ _
      exact Option.noConfusion h2
    · intro _ hle
      have hb : text.length - 1 ≤ text.length := Nat.sub_le _ _
      refine ⟨pySlice_length text m.me (text.length - 1) hle hb, ?_⟩
      intro j hj
      rw [pySlice_length text m.me (text.length - 1) hle hb] at hj
      exact pySlice_get text m.me (text.length - 1) j hj hb

/-- C5 counterexample: on `"May 2013 - June 2014 Python!"` the single
date-range match ends at index 20, the code attributes the segment
`" Python"` to it, yet the slice extending to the end of the text — what
the claim asserts — is `" Python!"`: the final character is dropped. -/
theorem segmentsOf_excludes_final_char :
    segmentsOf "May 2013 - June 2014 Python!".data = [" Python".data] ∧
    pySlice "May 2013 - June 2014 Python!".data 20
      "May 2013 - June 2014 Python!".data.length = " Python!".data := by
  decide

/-- C5 witness: on `"May 2013 - June 2014 Python!"` the (single, last)
match ends at 20, its attributed segment has length 7 with final character
the `n` at text index 26 — index 27, the `!`, is excluded. -/
theorem segment_attribution_witness :
    (dateMatches "May 2013 - June 2014 Python!".data).get? 0 =
      some ⟨0, 20, [(2, 11, 20), (1, 0, 8)]⟩ ∧
    ∃ seg, (segmentsOf "May 2013 - June 2014 Python!".data).get? 0 = some seg ∧
      seg.length = 7 ∧ seg.get? 6 = some 'n' := by
  refine ⟨by decide, ?_⟩
  obtain ⟨seg, hs, _, hlast⟩ :=
    segment_attribution "May 2013 - June 2014 Python!".data 0
      ⟨0, 20, [(2, 11, 20), (1, 0, 8)]⟩ (by decide)
  obtain ⟨hlen, hget⟩ := hlast (by decide) (by decide)
  refine ⟨seg, hs, hlen.trans (by decide), ?_⟩
  have h6 := hget 6 (by rw [hlen]; decide)
  exact h6.trans (by decide)

/-- C10: `get_skills_duration` does *not* complete without raising on every
input: on the text `"May 2013 - June 2014 phpx"` with the single dictionary
term `php`, the full-text scan finds nothing (`php` is glued to `x`), so the
accumulator is seeded empty; but the last segment is cut at
`len(text) - 1 = 24`, which slices the `x` off, so the segment scan of
`" php"` does find `php`, and the unguarded
`skills_duration[skill] += ...` on line 79 hits a missing key — a
`KeyError`, modelled as `.error ()`. -/
theorem get_skills_duration_keyerror :
    get_skills_duration ["php".data] ⟨2024, 1, 1⟩
      "May 2013 - June 2014 phpx".data = .error () ∧
    extract_skills ["php".data] "May 2013 - June 2014 phpx".data = [] ∧
    extract_skills ["php".data]
      (pySlice "May 2013 - June 2014 phpx".data 20 24) = ["php".data] := by
  decide
